import Mathlib

/-!
# TD4 4-bit CPU emulator (`main.go`)

A shallow embedding of the emulator of `main.go` and the properties of its
fetch-decode-execute cycle.

Modelling conventions.

* Go `uint8` values are natural numbers; every `uint8` operation that can leave
  the range is followed by an explicit `% 256` (`PC++`, `before + im`).
  `row >> 4` is `row >>> 4`, `x & 0x0f` is `x &&& 0x0f`.
* The pointers `e.Register` and `e.Port` are owned by the emulator alone, so a
  method that mutates the emulator is a function returning the new emulator.
* Lines written by `log.Printf` / `log.Println` / `fmt.Printf` are values of
  `LogLine`, returned next to the new state, oldest first.
* `exec` waits on the ticker and on `ctx.Done()`.  The run is parameterised by
  the number of ticks delivered before the cancellation is taken.
* The opcode constants live in the namespace `opCode`, the methods of the same
  names in the namespace `emulator`.
-/

namespace TD4

/-! ## Data model (main.go lines 14-47) -/

/-- Go `type opCode uint8`. -/
abbrev opCode := Nat

namespace opCode

def movA : opCode := 0b0011
def movB : opCode := 0b0111
def movA2B : opCode := 0b0100
def movB2A : opCode := 0b0001
def addA : opCode := 0b0000
def addB : opCode := 0b0101
def jmp : opCode := 0b1111
def jnc : opCode := 0b1110
def inA : opCode := 0b0010
def inB : opCode := 0b0110
def outB : opCode := 0b1001
def outIm : opCode := 0b1011

end opCode

/-- Go `type register struct`. -/
structure register where
  A : Nat
  B : Nat
  C : Bool
  PC : Nat
deriving DecidableEq, Repr

/-- Go `type port struct`. -/
structure port where
  In : Nat
  Out : Nat
deriving DecidableEq, Repr

/-- Go `type emulator struct`. -/
structure emulator where
  Register : register
  Port : port
  Rom : List Nat
deriving DecidableEq, Repr

/-- The lines the emulator writes while running. -/
inductive LogLine where
  /-- Line 232, `log.Printf("Port B Out: %04b\n", e.Port.Out)`. -/
  | portBOut (v : Nat)
  /-- Line 239, `log.Printf("Port Out: %04b\n", e.Port.Out)`. -/
  | portOut (v : Nat)
  /-- Lines 134-135, `log.Println(errors.New("OpCode doesn't exist"))`. -/
  | opCodeError
  /-- Lines 139-145, the dump printed when `debugFlag` is set. -/
  | debugDump (op : opCode) (im : Nat) (r : register) (p : port)
deriving DecidableEq, Repr

/-- The value carried by a line, when the line is an output event of an OUT instruction. -/
def LogLine.outValue : LogLine → Option Nat
  | .portBOut v => some v
  | .portOut v => some v
  | .opCodeError => none
  | .debugDump _ _ _ _ => none

/-- The output events of a log, in order: the values written by the OUT instructions. -/
def outputs (log : List LogLine) : List Nat :=
  log.filterMap LogLine.outValue

/-! ## Construction (main.go lines 49-58) -/

/-- Go `newEmulator`: the error, or the emulator with zero-valued register and port. -/
def newEmulator (rom : List Nat) : Except String emulator :=
  if rom.length > 16 then
    Except.error "Rom size is over. Max size is 16."
  else
    Except.ok
      { Register := { A := 0, B := 0, C := false, PC := 0 }
        Port := { In := 0, Out := 0 }
        Rom := rom }

/-! ## Fetch and decode (main.go lines 83-99) -/

/-- Go `(e *emulator) fetch`. -/
def emulator.fetch (e : emulator) : Nat :=
  if h : e.Rom.length ≤ e.Register.PC then
    0
  else
    e.Rom.get ⟨e.Register.PC, Nat.lt_of_not_le h⟩

/-- Go `(e *emulator) decode`; the receiver is not used. -/
def decode (row : Nat) : opCode × Nat :=
  let op := row >>> 4
  let im := row &&& 0x0f
  if op = opCode.movA2B ∨ op = opCode.movB2A ∨ op = opCode.inA ∨ op = opCode.inB
      ∨ op = opCode.outB then
    (op, 0)
  else
    (op, im)

/-! ## The instructions (main.go lines 160-242) -/

/-- Go `PC++` on a `uint8`. -/
def register.incPC (r : register) : register :=
  { r with PC := (r.PC + 1) % 256 }

def emulator.movA (e : emulator) (im : Nat) : emulator :=
  { e with Register := { e.Register with A := im, C := false }.incPC }

def emulator.movB (e : emulator) (im : Nat) : emulator :=
  { e with Register := { e.Register with B := im, C := false }.incPC }

def emulator.movA2B (e : emulator) : emulator :=
  { e with Register := { e.Register with B := e.Register.A, C := false }.incPC }

def emulator.movB2A (e : emulator) : emulator :=
  { e with Register := { e.Register with A := e.Register.B, C := false }.incPC }

def emulator.addA (e : emulator) (im : Nat) : emulator :=
  let before := e.Register.A
  let after := (before + im) % 256
  let c := if after > 0x0f then true else e.Register.C
  { e with Register := { e.Register with C := c, A := after &&& 0x0f }.incPC }

def emulator.addB (e : emulator) (im : Nat) : emulator :=
  let before := e.Register.B
  let after := (before + im) % 256
  let c := if after > 0x0f then true else e.Register.C
  { e with Register := { e.Register with C := c, B := after &&& 0x0f }.incPC }

def emulator.jmp (e : emulator) (im : Nat) : emulator :=
  { e with Register := { e.Register with PC := im, C := false } }

def emulator.jnc (e : emulator) (im : Nat) : emulator :=
  let r := if e.Register.C = false then { e.Register with PC := im } else e.Register.incPC
  { e with Register := { r with C := false } }

def emulator.inA (e : emulator) : emulator :=
  { e with Register := { e.Register with A := e.Port.In, C := false }.incPC }

def emulator.inB (e : emulator) : emulator :=
  { e with Register := { e.Register with B := e.Port.In, C := false }.incPC }

/-- Go `outB`: the new state and the line it logs. -/
def emulator.outB (e : emulator) : emulator × LogLine :=
  let p : port := { e.Port with Out := e.Register.B }
  ({ e with Port := p, Register := { e.Register with C := false }.incPC },
    LogLine.portBOut p.Out)

/-- Go `outIm`: the new state and the line it logs. -/
def emulator.outIm (e : emulator) (im : Nat) : emulator × LogLine :=
  let p : port := { e.Port with Out := im }
  ({ e with Port := p, Register := { e.Register with C := false }.incPC },
    LogLine.portOut p.Out)

/-! ## The run loop (main.go lines 101-155) -/

/-- The opcode switch of `exec` (lines 108-137): the state and the lines logged by the
selected instruction, or `none` when the `default` branch is taken. -/
def emulator.dispatch (e : emulator) (op : opCode) (im : Nat) :
    Option (emulator × List LogLine) :=
  if op = opCode.movA then some (e.movA im, [])
  else if op = opCode.movB then some (e.movB im, [])
  else if op = opCode.movA2B then some (e.movA2B, [])
  else if op = opCode.movB2A then some (e.movB2A, [])
  else if op = opCode.addA then some (e.addA im, [])
  else if op = opCode.addB then some (e.addB im, [])
  else if op = opCode.jmp then some (e.jmp im, [])
  else if op = opCode.jnc then some (e.jnc im, [])
  else if op = opCode.inA then some (e.inA, [])
  else if op = opCode.inB then some (e.inB, [])
  else if op = opCode.outB then some (e.outB.1, [e.outB.2])
  else if op = opCode.outIm then some ((e.outIm im).1, [(e.outIm im).2])
  else none

/-- What one pass through the `case <-t.C:` branch leaves behind. -/
structure Tick where
  /-- The emulator after the pass. -/
  emu : emulator
  /-- The lines written during the pass. -/
  log : List LogLine
  /-- Whether `exec` returned (the engine is Halted) instead of looping. -/
  halted : Bool
deriving DecidableEq, Repr

/-- Lines 106-150 of `exec`, for the fetched byte `row`: decode, dispatch, debug dump,
halt test. -/
def emulator.cycle (debugFlag : Bool) (e : emulator) (row : Nat) : Tick :=
  let op := (decode row).1
  let im := (decode row).2
  match e.dispatch op im with
  | none => { emu := e, log := [LogLine.opCodeError], halted := true }
  | some (e1, out) =>
    let dump := if debugFlag then [LogLine.debugDump op im e1.Register e1.Port] else []
    { emu := e1, log := out ++ dump, halted := decide (e1.Register.PC ≥ e1.Rom.length) }

/-- One pass through the `case <-t.C:` branch of `exec` (lines 105-150). -/
def emulator.tick (debugFlag : Bool) (e : emulator) : Tick :=
  e.cycle debugFlag e.fetch

/-- The result of a call of `exec`. -/
structure Run where
  /-- The emulator when `exec` returns. -/
  emu : emulator
  /-- All lines written, oldest first. -/
  log : List LogLine
  /-- The number of ticks processed. -/
  steps : Nat
  /-- True when `exec` returned from the tick branch (Halted), false when it returned
  through `ctx.Done()`. -/
  halted : Bool
deriving DecidableEq, Repr

/-- Go `(e *emulator) exec`, with `ticks` ticks delivered before `ctx.Done()` is taken. -/
def emulator.exec (debugFlag : Bool) : Nat → emulator → Run
  | 0, e => { emu := e, log := [], steps := 0, halted := false }
  | n + 1, e =>
    let t := e.tick debugFlag
    if t.halted then
      { emu := t.emu, log := t.log, steps := 1, halted := true }
    else
      let r := emulator.exec debugFlag n t.emu
      { emu := r.emu, log := t.log ++ r.log, steps := r.steps + 1, halted := r.halted }

/-! ## The sample programs (main.go lines 277-317) -/

def calcRom : List Nat :=
  [ 0b00110001, -- MOV A 1
    0b00000001, -- ADD A 1
    0b01000000, -- MOV B A
    0b10010000 ] -- OUT B

/-- The twelve opcodes of the `const` block (lines 16-29), in the order of the switch. -/
def definedOpCodes : List opCode :=
  [opCode.movA, opCode.movB, opCode.movA2B, opCode.movB2A, opCode.addA, opCode.addB,
    opCode.jmp, opCode.jnc, opCode.inA, opCode.inB, opCode.outB, opCode.outIm]

/-! ## Reachable states -/

/-- The external collaborator latches `v` on the input port; nothing else changes. -/
def emulator.setIn (e : emulator) (v : Nat) : emulator :=
  { e with Port := { e.Port with In := v } }

/-- The states of the runs of `newEmulator rom`, each with the flag telling whether `exec`
has returned from it (Halted): the initial state is Running, a tick is processed in a Running
state only, and between ticks the collaborator may latch any 4-bit value on `Port.In`. -/
inductive Reach (debugFlag : Bool) (rom : List Nat) : emulator → Bool → Prop where
  | init (e : emulator) (h : newEmulator rom = Except.ok e) : Reach debugFlag rom e false
  | tick (e : emulator) (h : Reach debugFlag rom e false) :
      Reach debugFlag rom (e.tick debugFlag).emu (e.tick debugFlag).halted
  | input (e : emulator) (halted : Bool) (v : Nat) (hv : v ≤ 15)
      (h : Reach debugFlag rom e halted) : Reach debugFlag rom (e.setIn v) halted

/-- A two-byte program reading the input port: IN A; ADD A,15. -/
def inAddRom : List Nat :=
  [0b00100000, 0b00001111]

/-- The initial state of `inAddRom`, as `newEmulator` builds it. -/
def inAddStart : emulator :=
  { Register := { A := 0, B := 0, C := false, PC := 0 }
    Port := { In := 0, Out := 0 }
    Rom := inAddRom }

/-- Both accumulators and both port latches hold 4-bit values. -/
def emulator.nibbles (e : emulator) : Prop :=
  e.Register.A ≤ 15 ∧ e.Register.B ≤ 15 ∧ e.Port.In ≤ 15 ∧ e.Port.Out ≤ 15

/-! ## Sample states -/

/-- A state in the middle of a three-byte program, carry set. -/
def stCarry : emulator :=
  { Register := { A := 12, B := 3, C := true, PC := 2 }
    Port := { In := 1, Out := 4 }
    Rom := [0b00000000, 0b00000000, 0b11100101] }

/-- The state `stCarry` with the carry clear. -/
def stNoCarry : emulator :=
  { Register := { A := 12, B := 3, C := false, PC := 2 }
    Port := { In := 1, Out := 4 }
    Rom := [0b00000000, 0b00000000, 0b11100101] }

/-! ## The other sample programs (main.go lines 285-317) -/

def ledRom : List Nat :=
  [ 0b10110011, -- OUT 0011
    0b10110110, -- OUT 0110
    0b10111100, -- OUT 1100
    0b10111000, -- OUT 1000
    0b10111000, -- OUT 1000
    0b10111100, -- OUT 1100
    0b10110110, -- OUT 0110
    0b10110011, -- OUT 0011
    0b10110001, -- OUT 0001
    0b11110000 ] -- JMP 0

def ramenRom : List Nat :=
  [ 0b10110111, -- OUT 0111
    0b00000001, -- ADD A 1
    0b11100001, -- JNC 0001
    0b00000001, -- ADD A 1
    0b11100011, -- JNC 0011
    0b10110110, -- OUT 0110
    0b00000001, -- ADD A 1
    0b11100110, -- JNC 0110
    0b00000001, -- ADD A 1
    0b11101000, -- JNC 1000
    0b10110000, -- OUT 0000
    0b10110100, -- OUT 0100
    0b00000001, -- ADD A 1
    0b11101010, -- JNC 1010
    0b10111000, -- OUT 1000
    0b11111111 ] -- JMP 1111

/-! ## Observing a run -/

/-- The emulator `newEmulator rom` returns when it succeeds (lines 53-57). -/
def initial (rom : List Nat) : emulator :=
  { Register := { A := 0, B := 0, C := false, PC := 0 }
    Port := { In := 0, Out := 0 }
    Rom := rom }

/-- The addresses `exec` fetches from, one per processed tick, in order: the value of PC at
line 105 of each pass.  The recursion is the one of `emulator.exec`. -/
def emulator.fetches (debugFlag : Bool) : Nat → emulator → List Nat
  | 0, _ => []
  | n + 1, e =>
    let t := e.tick debugFlag
    if t.halted then
      [e.Register.PC]
    else
      e.Register.PC :: emulator.fetches debugFlag n t.emu

/-- The ten opcodes whose instructions are neither JMP nor JNC. -/
def nonJumpOpCodes : List opCode :=
  [opCode.movA, opCode.movB, opCode.movA2B, opCode.movB2A, opCode.addA, opCode.addB,
    opCode.inA, opCode.inB, opCode.outB, opCode.outIm]

/-- A program of sixteen bytes without a jump: sixteen times ADD A,0. -/
def addRom16 : List Nat :=
  List.replicate 16 0b00000000

/-! ## The variant engine with a fresh adder carry -/

/-- ADD A of the variant: the carry is the carry out of this sum, set or cleared. -/
def emulator.addAFresh (e : emulator) (im : Nat) : emulator :=
  let before := e.Register.A
  let after := (before + im) % 256
  { e with Register :=
      { e.Register with C := decide (after > 0x0f), A := after &&& 0x0f }.incPC }

/-- ADD B of the variant: the carry is the carry out of this sum, set or cleared. -/
def emulator.addBFresh (e : emulator) (im : Nat) : emulator :=
  let before := e.Register.B
  let after := (before + im) % 256
  { e with Register :=
      { e.Register with C := decide (after > 0x0f), B := after &&& 0x0f }.incPC }

/-- The opcode switch of the variant: the two ADD cases call the variant methods, every
other case is the one of `emulator.dispatch`. -/
def emulator.dispatchFresh (e : emulator) (op : opCode) (im : Nat) :
    Option (emulator × List LogLine) :=
  if op = opCode.addA then some (e.addAFresh im, [])
  else if op = opCode.addB then some (e.addBFresh im, [])
  else e.dispatch op im

/-- The tick branch of the variant: `emulator.cycle` over `dispatchFresh`. -/
def emulator.cycleFresh (debugFlag : Bool) (e : emulator) (row : Nat) : Tick :=
  let op := (decode row).1
  let im := (decode row).2
  match e.dispatchFresh op im with
  | none => { emu := e, log := [LogLine.opCodeError], halted := true }
  | some (e1, out) =>
    let dump := if debugFlag then [LogLine.debugDump op im e1.Register e1.Port] else []
    { emu := e1, log := out ++ dump, halted := decide (e1.Register.PC ≥ e1.Rom.length) }

/-- One tick of the variant. -/
def emulator.tickFresh (debugFlag : Bool) (e : emulator) : Tick :=
  e.cycleFresh debugFlag e.fetch

/-- The run loop of the variant: `emulator.exec` over `tickFresh`. -/
def emulator.execFresh (debugFlag : Bool) : Nat → emulator → Run
  | 0, e => { emu := e, log := [], steps := 0, halted := false }
  | n + 1, e =>
    let t := e.tickFresh debugFlag
    if t.halted then
      { emu := t.emu, log := t.log, steps := 1, halted := true }
    else
      let r := emulator.execFresh debugFlag n t.emu
      { emu := r.emu, log := t.log ++ r.log, steps := r.steps + 1, halted := r.halted }

/-- Whether the byte is an ADD A or an ADD B. -/
def isAdd (row : Nat) : Bool :=
  decide ((decode row).1 = opCode.addA ∨ (decode row).1 = opCode.addB)

/-- No ADD of the program is stored right after another ADD. -/
def addPairFree : List Nat → Bool
  | a :: b :: rest => !(isAdd a && isAdd b) && addPairFree (b :: rest)
  | _ => true

/-- A program on which the two carries differ: ADD A,15; ADD A,1; ADD A,0; JNC 0. -/
def carryRom : List Nat :=
  [0b00001111, 0b00000001, 0b00000000, 0b11100000]

/-! ## The run of `ramenRom` -/

/-- The state in which `ramenRom` spins on its last byte, JMP 1111. -/
def ramenSpin : emulator :=
  { Register := { A := 0, B := 0, C := false, PC := 15 }
    Port := { In := 0, Out := 8 }
    Rom := ramenRom }

/-- The addresses of sixteen rounds of a loop over the addresses `body`. -/
def rounds16 (body : List Nat) : List Nat :=
  (List.replicate 16 body).flatten

/-- The addresses `ramenRom` goes through before it reaches its last byte: each of its five
JNC loops sixteen times. -/
def ramenPath : List Nat :=
  [0] ++ rounds16 [1, 2] ++ rounds16 [3, 4] ++ [5] ++ rounds16 [6, 7] ++ rounds16 [8, 9]
    ++ rounds16 [10, 11, 12, 13] ++ [14]

/-- The output events of `ramenRom`: 7, 6, sixteen times (0, 4), then 8. -/
def ramenOutputs : List Nat :=
  [7, 6] ++ rounds16 [0, 4] ++ [8]

/-! ## Arithmetic of the bit operations -/

theorem and_0x0f (x : Nat) : x &&& 0x0f = x % 16 :=
  Nat.and_pow_two_sub_one_eq_mod x 4

theorem shr_4 (x : Nat) : x >>> 4 = x / 16 := by
  rw [Nat.shiftRight_eq_div_pow]

theorem decode_fst (row : Nat) : (decode row).1 = row / 16 := by
  unfold decode
  simp only [shr_4]
  split <;> rfl

theorem decode_snd_le (row : Nat) : (decode row).2 ≤ 15 := by
  unfold decode
  simp only [and_0x0f]
  split
  · exact Nat.zero_le _
  · show row % 16 ≤ 15
    omega

/-- The byte of an ADD A: opcode 0000, operand `im`. -/
theorem decode_addA (im : Nat) (him : im ≤ 15) : decode im = (opCode.addA, im) := by
  interval_cases im <;> rfl

/-- The byte of an ADD B: opcode 0101, operand `im`. -/
theorem decode_addB (im : Nat) (him : im ≤ 15) : decode (0b01010000 + im) = (opCode.addB, im) := by
  interval_cases im <;> rfl

/-! ## End-to-end run of `calcRom` -/

/-- C1: running `calcRom` from the state built by `newEmulator`, one step per tick.  With
`ticks` ticks delivered the run performs `min ticks 4` steps and is Halted exactly when
`4 ≤ ticks`; once the halt test has fired (at least 4 ticks) it has performed exactly 4
steps, emitted exactly one output event, of value 2, and ended Halted with PC=4, A=2, B=2,
C=false, Port.Out=2. -/
theorem calcRom_run (debugFlag : Bool) (ticks : Nat) :
    ∃ e : emulator, newEmulator calcRom = Except.ok e ∧
      (e.exec debugFlag ticks).steps = min ticks 4 ∧
      (e.exec debugFlag ticks).halted = decide (4 ≤ ticks) ∧
      (e.exec debugFlag (ticks + 4)).steps = 4 ∧
      (e.exec debugFlag (ticks + 4)).halted = true ∧
      outputs (e.exec debugFlag (ticks + 4)).log = [2] ∧
      (e.exec debugFlag (ticks + 4)).emu.Register = { A := 2, B := 2, C := false, PC := 4 } ∧
      (e.exec debugFlag (ticks + 4)).emu.Port = { In := 0, Out := 2 } ∧
      (e.exec debugFlag (ticks + 4)).emu.Rom = calcRom := by
  refine ⟨_, rfl, ?_, ?_, ?_⟩
  · rcases ticks with _ | _ | _ | _ | n
    · rfl
    · cases debugFlag <;> rfl
    · cases debugFlag <;> rfl
    · cases debugFlag <;> rfl
    · have h : min (n + 1 + 1 + 1 + 1) 4 = 4 := by omega
      rw [h]
      cases debugFlag <;> rfl
  · rcases ticks with _ | _ | _ | _ | n
    · rfl
    · cases debugFlag <;> rfl
    · cases debugFlag <;> rfl
    · cases debugFlag <;> rfl
    · have h : decide (4 ≤ n + 1 + 1 + 1 + 1) = true := by simp
      rw [h]
      cases debugFlag <;> rfl
  · cases debugFlag <;> exact ⟨rfl, rfl, rfl, rfl, rfl, rfl⟩

/-! ## The two ADD instructions -/

/-- C2: for an accumulator value in 0..15 and an immediate `im` in 0..15, ADD A,im (resp.
ADD B,im) stores `(r + im) mod 16` in A (resp. B), makes the carry `old carry OR r + im > 15`
(true on overflow, otherwise its prior value), increments PC by one (the `uint8` increment
`(PC + 1) mod 256`, which is `PC + 1` below 255) and leaves the other accumulator, the port
and the program unchanged; the bytes `0000 im` and `0101 im` execute these two methods.  From
the initial state ADD A,15 then ADD A,1 gives A=0 with the carry set, and for `A ≤ 13` two
consecutive ADD A,1 leave the carry as it was before the first. -/
theorem add_carry_spec (debugFlag : Bool) (e : emulator) (im : Nat) (him : im ≤ 15) :
    (e.Register.A ≤ 15 →
      (e.addA im).Register.A = (e.Register.A + im) % 16 ∧
      (e.addA im).Register.C = (e.Register.C || decide (e.Register.A + im > 15)) ∧
      (e.addA im).Register.PC = (e.Register.PC + 1) % 256 ∧
      (e.Register.PC < 255 → (e.addA im).Register.PC = e.Register.PC + 1) ∧
      (e.addA im).Register.B = e.Register.B ∧
      (e.addA im).Port = e.Port ∧ (e.addA im).Rom = e.Rom) ∧
    (e.Register.B ≤ 15 →
      (e.addB im).Register.B = (e.Register.B + im) % 16 ∧
      (e.addB im).Register.C = (e.Register.C || decide (e.Register.B + im > 15)) ∧
      (e.addB im).Register.PC = (e.Register.PC + 1) % 256 ∧
      (e.Register.PC < 255 → (e.addB im).Register.PC = e.Register.PC + 1) ∧
      (e.addB im).Register.A = e.Register.A ∧
      (e.addB im).Port = e.Port ∧ (e.addB im).Rom = e.Rom) ∧
    (e.cycle debugFlag im).emu = e.addA im ∧
    (e.cycle debugFlag (0b01010000 + im)).emu = e.addB im ∧
    (∀ rom e0, newEmulator rom = Except.ok e0 →
      ((e0.addA 15).addA 1).Register.A = 0 ∧ ((e0.addA 15).addA 1).Register.C = true) ∧
    (e.Register.A ≤ 13 → ((e.addA 1).addA 1).Register.C = e.Register.C) := by
  refine ⟨?_, ?_, ?_, ?_, ?_, ?_⟩
  · intro hA
    have h256 : (e.Register.A + im) % 256 = e.Register.A + im := Nat.mod_eq_of_lt (by omega)
    refine ⟨?_, ?_, rfl, ?_, rfl, rfl, rfl⟩
    · simp only [emulator.addA, register.incPC, and_0x0f, h256]
    · simp only [emulator.addA, register.incPC, h256]
      by_cases h : e.Register.A + im > 15 <;> simp [h]
    · intro hpc
      show (e.Register.PC + 1) % 256 = e.Register.PC + 1
      exact Nat.mod_eq_of_lt (by omega)
  · intro hB
    have h256 : (e.Register.B + im) % 256 = e.Register.B + im := Nat.mod_eq_of_lt (by omega)
    refine ⟨?_, ?_, rfl, ?_, rfl, rfl, rfl⟩
    · simp only [emulator.addB, register.incPC, and_0x0f, h256]
    · simp only [emulator.addB, register.incPC, h256]
      by_cases h : e.Register.B + im > 15 <;> simp [h]
    · intro hpc
      show (e.Register.PC + 1) % 256 = e.Register.PC + 1
      exact Nat.mod_eq_of_lt (by omega)
  · simp only [emulator.cycle, decode_addA im him]
    rfl
  · simp only [emulator.cycle, decode_addB im him]
    rfl
  · intro rom e0 h0
    unfold newEmulator at h0
    split at h0
    · cases h0
    · cases h0
      constructor <;> simp [emulator.addA, register.incPC, and_0x0f]
  · intro hA
    have h1 : (e.Register.A + 1) % 256 = e.Register.A + 1 := Nat.mod_eq_of_lt (by omega)
    have h2 : (e.Register.A + 1) % 16 = e.Register.A + 1 := Nat.mod_eq_of_lt (by omega)
    have h3 : (e.Register.A + 1 + 1) % 256 = e.Register.A + 1 + 1 := Nat.mod_eq_of_lt (by omega)
    have n1 : ¬ (e.Register.A + 1 > 15) := by omega
    have n2 : ¬ (e.Register.A + 1 + 1 > 15) := by omega
    simp only [emulator.addA, register.incPC, and_0x0f, h1, h2, h3, n1, n2, if_false]

theorem add_carry_spec_witness :
    ((9 : Nat) ≤ 15 ∧ stNoCarry.Register.A ≤ 15) ∧
      (stNoCarry.addA 9).Register.A = 5 ∧ (stNoCarry.addA 9).Register.C = true ∧
      (stNoCarry.addA 9).Register.PC = 3 :=
  ⟨⟨by decide, by decide⟩,
    ((add_carry_spec false stNoCarry 9 (by decide)).1 (by decide)).1,
    ((add_carry_spec false stNoCarry 9 (by decide)).1 (by decide)).2.1,
    ((add_carry_spec false stNoCarry 9 (by decide)).1 (by decide)).2.2.1⟩

/-! ## The conditional jump -/

/-- The byte of a JNC: opcode 1110, operand `im`. -/
theorem decode_jnc (im : Nat) (him : im ≤ 15) : decode (0b11100000 + im) = (opCode.jnc, im) := by
  interval_cases im <;> rfl

/-- C3: for every state and every `im` in 0..15, the byte `1110 im` executes `jnc im`; with
the carry clear JNC im sets PC to `im`, with the carry set it sets PC to PC+1 (the `uint8`
increment `(PC + 1) mod 256`, which is `PC + 1` below 255); in both cases the carry is false
afterwards and A, B, the port and the program are unchanged. -/
theorem jnc_spec (debugFlag : Bool) (e : emulator) (im : Nat) (him : im ≤ 15) :
    (e.cycle debugFlag (0b11100000 + im)).emu = e.jnc im ∧
    (e.Register.C = false → (e.jnc im).Register.PC = im) ∧
    (e.Register.C = true → (e.jnc im).Register.PC = (e.Register.PC + 1) % 256) ∧
    (e.Register.C = true → e.Register.PC < 255 →
      (e.jnc im).Register.PC = e.Register.PC + 1) ∧
    (e.jnc im).Register.C = false ∧
    (e.jnc im).Register.A = e.Register.A ∧
    (e.jnc im).Register.B = e.Register.B ∧
    (e.jnc im).Port = e.Port ∧
    (e.jnc im).Rom = e.Rom := by
  refine ⟨?_, ?_, ?_, ?_, rfl, ?_, ?_, rfl, rfl⟩
  · simp only [emulator.cycle, decode_jnc im him]
    rfl
  · intro hc
    simp [emulator.jnc, hc]
  · intro hc
    simp [emulator.jnc, hc, register.incPC]
  · intro hc hpc
    have h : (e.Register.PC + 1) % 256 = e.Register.PC + 1 := Nat.mod_eq_of_lt (by omega)
    simp [emulator.jnc, hc, register.incPC, h]
  · cases hc : e.Register.C <;> simp [emulator.jnc, hc, register.incPC]
  · cases hc : e.Register.C <;> simp [emulator.jnc, hc, register.incPC]

theorem jnc_spec_witness :
    ((5 : Nat) ≤ 15 ∧ stCarry.Register.C = true ∧ stCarry.Register.PC < 255) ∧
      (stCarry.jnc 5).Register.PC = 3 ∧ (stCarry.jnc 5).Register.C = false :=
  ⟨⟨by decide, rfl, by decide⟩,
    (jnc_spec false stCarry 5 (by decide)).2.2.2.1 rfl (by decide),
    (jnc_spec false stCarry 5 (by decide)).2.2.2.2.1⟩

/-! ## The decoder -/

/-- C4: for every byte `b` (0..255) `decode b` returns the opcode `b >> 4` (which is
`b / 16`) and the operand `b & 0xF` (which is `b mod 16`), except that the operand is 0 when
the opcode is MOV B,A, MOV A,B, IN A, IN B or OUT B; `decode` is total and both results are
in 0..15.  `decode 0b00110101 = (0011, 5)` and `decode 0b01000111 = (0100, 0)`. -/
theorem decode_spec (b : Nat) (hb : b ≤ 255) :
    (decode b).1 = b >>> 4 ∧ (decode b).1 = b / 16 ∧
    ((decode b).1 ∈ [opCode.movA2B, opCode.movB2A, opCode.inA, opCode.inB, opCode.outB] →
      (decode b).2 = 0) ∧
    ((decode b).1 ∉ [opCode.movA2B, opCode.movB2A, opCode.inA, opCode.inB, opCode.outB] →
      (decode b).2 = b &&& 0x0f ∧ (decode b).2 = b % 16) ∧
    (decode b).1 ≤ 15 ∧ (decode b).2 ≤ 15 ∧
    decode 0b00110101 = (0b0011, 5) ∧ decode 0b01000111 = (0b0100, 0) := by
  have h1 : (decode b).1 = b / 16 := decode_fst b
  have h15 : b / 16 ≤ 15 := by omega
  refine ⟨by rw [h1, shr_4], h1, ?_, ?_, h1 ▸ h15, decode_snd_le b, rfl, rfl⟩
  · intro h
    rw [h1] at h
    simp only [List.mem_cons, List.mem_singleton, List.not_mem_nil, or_false] at h
    unfold decode
    rw [if_pos (by rw [shr_4]; exact h)]
  · intro h
    rw [h1] at h
    simp only [List.mem_cons, List.mem_singleton, List.not_mem_nil, or_false] at h
    unfold decode
    rw [if_neg (by rw [shr_4]; exact h)]
    exact ⟨rfl, and_0x0f b⟩

theorem decode_spec_witness :
    (0b10010110 : Nat) ≤ 255 ∧ (decode 0b10010110).1 = 0b1001 ∧ (decode 0b10010110).2 = 0 :=
  ⟨by decide, (decode_spec 0b10010110 (by decide)).2.1,
    (decode_spec 0b10010110 (by decide)).2.2.1 (by decide)⟩

/-! ## Carry and program counter after a step -/

/-- C5: for every state, whatever its carry, and every fetched byte whose opcode is one of
the ten instructions other than ADD A and ADD B, the carry flag is false after the step. -/
theorem carry_cleared (debugFlag : Bool) (e : emulator) (row : Nat)
    (h : (decode row).1 ∈ [opCode.movA, opCode.movB, opCode.movA2B, opCode.movB2A, opCode.jmp,
      opCode.jnc, opCode.inA, opCode.inB, opCode.outB, opCode.outIm]) :
    (e.cycle debugFlag row).emu.Register.C = false := by
  simp only [List.mem_cons, List.mem_singleton, List.not_mem_nil, or_false] at h
  rcases h with h | h | h | h | h | h | h | h | h | h <;>
    simp [emulator.cycle, emulator.dispatch, h, opCode.movA, opCode.movB, opCode.movA2B,
      opCode.movB2A, opCode.addA, opCode.addB, opCode.jmp, opCode.jnc, opCode.inA, opCode.inB,
      opCode.outB, opCode.outIm, emulator.movA, emulator.movB, emulator.movA2B,
      emulator.movB2A, emulator.jmp, emulator.jnc, emulator.inA, emulator.inB, emulator.outB,
      emulator.outIm, register.incPC]

theorem carry_cleared_witness :
    (decode 0b10010000).1 ∈ [opCode.movA, opCode.movB, opCode.movA2B, opCode.movB2A,
        opCode.jmp, opCode.jnc, opCode.inA, opCode.inB, opCode.outB, opCode.outIm] ∧
      stCarry.Register.C = true ∧ (stCarry.cycle false 0b10010000).emu.Register.C = false :=
  ⟨by decide, rfl, carry_cleared false stCarry 0b10010000 (by decide)⟩

/-- C6: for every state with PC in 0..15, a step executing any of the ten instructions other
than JMP and JNC leaves PC equal to the old PC + 1 (no wrap), and a step executing JMP im
(opcode 1111, `im` the low nibble of the byte) leaves PC equal to `im` with A, B and the port
unchanged. -/
theorem pc_after_step (debugFlag : Bool) (e : emulator) (row : Nat)
    (hpc : e.Register.PC ≤ 15) :
    ((decode row).1 ∈ [opCode.movA, opCode.movB, opCode.movA2B, opCode.movB2A, opCode.addA,
        opCode.addB, opCode.inA, opCode.inB, opCode.outB, opCode.outIm] →
      (e.cycle debugFlag row).emu.Register.PC = e.Register.PC + 1) ∧
    ((decode row).1 = opCode.jmp →
      (e.cycle debugFlag row).emu.Register.PC = row % 16 ∧
      (e.cycle debugFlag row).emu.Register.PC = (decode row).2 ∧
      (e.cycle debugFlag row).emu.Register.A = e.Register.A ∧
      (e.cycle debugFlag row).emu.Register.B = e.Register.B ∧
      (e.cycle debugFlag row).emu.Port = e.Port) := by
  have hinc : (e.Register.PC + 1) % 256 = e.Register.PC + 1 := Nat.mod_eq_of_lt (by omega)
  constructor
  · intro h
    simp only [List.mem_cons, List.mem_singleton, List.not_mem_nil, or_false] at h
    rcases h with h | h | h | h | h | h | h | h | h | h <;>
      simp [emulator.cycle, emulator.dispatch, h, opCode.movA, opCode.movB, opCode.movA2B,
        opCode.movB2A, opCode.addA, opCode.addB, opCode.jmp, opCode.jnc, opCode.inA,
        opCode.inB, opCode.outB, opCode.outIm, emulator.movA, emulator.movB, emulator.movA2B,
        emulator.movB2A, emulator.addA, emulator.addB, emulator.inA, emulator.inB,
        emulator.outB, emulator.outIm, register.incPC, hinc]
  · intro h
    have him : (decode row).2 = row % 16 := by
      have h1 : row / 16 = 15 := by rw [← decode_fst row, h]; rfl
      unfold decode
      rw [if_neg (by rw [shr_4, h1]; decide)]
      exact and_0x0f row
    simp [emulator.cycle, emulator.dispatch, h, him, opCode.movA, opCode.movB, opCode.movA2B,
      opCode.movB2A, opCode.addA, opCode.addB, opCode.jmp, emulator.jmp]

theorem pc_after_step_witness :
    (stCarry.Register.PC ≤ 15 ∧ (decode 0b11110111).1 = opCode.jmp ∧
        (decode 0b00001111).1 ∈ [opCode.movA, opCode.movB, opCode.movA2B, opCode.movB2A,
          opCode.addA, opCode.addB, opCode.inA, opCode.inB, opCode.outB, opCode.outIm]) ∧
      (stCarry.cycle false 0b00001111).emu.Register.PC = 3 ∧
      (stCarry.cycle false 0b11110111).emu.Register.PC = 7 :=
  ⟨⟨by decide, by decide, by decide⟩,
    (pc_after_step false stCarry 0b00001111 (by decide)).1 (by decide),
    ((pc_after_step false stCarry 0b11110111 (by decide)).2 (by decide)).1⟩

/-! ## Halting -/

/-- C7: for every state and every fetched byte whose opcode is none of the twelve defined
ones (for a byte: 1000, 1010, 1100 or 1101, any low nibble), the step leaves the whole
emulator (A, B, C, PC, Port.In, Port.Out, program) as it was, emits no output event, only
the error line, and the engine is Halted: `exec` returns after this one tick, wherever PC
is. -/
theorem undefined_opcode_halts (debugFlag : Bool) (e : emulator) (row : Nat)
    (h : (decode row).1 ∉ definedOpCodes) :
    (e.cycle debugFlag row).emu = e ∧
    (e.cycle debugFlag row).log = [LogLine.opCodeError] ∧
    outputs (e.cycle debugFlag row).log = [] ∧
    (e.cycle debugFlag row).halted = true ∧
    (e.fetch = row → ∀ n, e.exec debugFlag (n + 1)
      = { emu := e, log := [LogLine.opCodeError], steps := 1, halted := true }) ∧
    (row ≤ 255 → (decode row).1 ∈ [0b1000, 0b1010, 0b1100, 0b1101]) := by
  have hd : e.dispatch (decode row).1 (decode row).2 = none := by
    simp only [definedOpCodes, List.mem_cons, List.mem_singleton, List.not_mem_nil, or_false,
      not_or] at h
    obtain ⟨h1, h2, h3, h4, h5, h6, h7, h8, h9, h10, h11, h12⟩ := h
    simp only [emulator.dispatch, h1, h2, h3, h4, h5, h6, h7, h8, h9, h10, h11, h12, if_false]
  have hc : e.cycle debugFlag row
      = { emu := e, log := [LogLine.opCodeError], halted := true } := by
    simp only [emulator.cycle, hd]
  refine ⟨by rw [hc], by rw [hc], by rw [hc]; rfl, by rw [hc], ?_, ?_⟩
  · intro hf n
    subst hf
    have ht : e.tick debugFlag
        = { emu := e, log := [LogLine.opCodeError], halted := true } := hc
    simp only [emulator.exec, ht, if_true]
  · intro hrow
    rw [decode_fst] at h ⊢
    have h16 : row / 16 ≤ 15 := by omega
    generalize row / 16 = op at h h16
    interval_cases op <;> first | decide | exact absurd (by decide) h

theorem undefined_opcode_halts_witness :
    ((decode 0b10000011).1 ∉ definedOpCodes ∧ stCarry.Register.PC < stCarry.Rom.length) ∧
      (stCarry.cycle false 0b10000011).emu = stCarry ∧
      (stCarry.cycle false 0b10000011).halted = true :=
  ⟨⟨by decide, by decide⟩,
    (undefined_opcode_halts false stCarry 0b10000011 (by decide)).1,
    (undefined_opcode_halts false stCarry 0b10000011 (by decide)).2.2.2.1⟩

/-- A defined opcode selects an instruction, which does not write the program. -/
theorem dispatch_defined (e : emulator) (op : opCode) (im : Nat) (h : op ∈ definedOpCodes) :
    ∃ e1 out, e.dispatch op im = some (e1, out) ∧ e1.Rom = e.Rom := by
  simp only [definedOpCodes, List.mem_cons, List.mem_singleton, List.not_mem_nil,
    or_false] at h
  rcases h with h | h | h | h | h | h | h | h | h | h | h | h <;> subst h
  · exact ⟨e.movA im, [], rfl, rfl⟩
  · exact ⟨e.movB im, [], rfl, rfl⟩
  · exact ⟨e.movA2B, [], rfl, rfl⟩
  · exact ⟨e.movB2A, [], rfl, rfl⟩
  · exact ⟨e.addA im, [], rfl, rfl⟩
  · exact ⟨e.addB im, [], rfl, rfl⟩
  · exact ⟨e.jmp im, [], rfl, rfl⟩
  · exact ⟨e.jnc im, [], rfl, rfl⟩
  · exact ⟨e.inA, [], rfl, rfl⟩
  · exact ⟨e.inB, [], rfl, rfl⟩
  · exact ⟨e.outB.1, [e.outB.2], rfl, rfl⟩
  · exact ⟨(e.outIm im).1, [(e.outIm im).2], rfl, rfl⟩

/-- C8: for every state and every fetched byte with one of the twelve defined opcodes, after
the transition the engine is Halted if and only if the updated PC is greater than or equal to
the length of the program (which the step does not change); otherwise it stays Running, the
updated PC addresses a program byte, and the next tick of `exec` executes that byte. -/
theorem halt_test (debugFlag : Bool) (e : emulator) (row : Nat)
    (h : (decode row).1 ∈ definedOpCodes) :
    ((e.cycle debugFlag row).halted = true ↔
      (e.cycle debugFlag row).emu.Register.PC ≥ (e.cycle debugFlag row).emu.Rom.length) ∧
    (e.cycle debugFlag row).emu.Rom = e.Rom ∧
    ((e.cycle debugFlag row).halted = false →
      ∃ hlt : (e.cycle debugFlag row).emu.Register.PC < (e.cycle debugFlag row).emu.Rom.length,
        (e.cycle debugFlag row).emu.fetch
          = (e.cycle debugFlag row).emu.Rom.get ⟨(e.cycle debugFlag row).emu.Register.PC, hlt⟩ ∧
        (e.cycle debugFlag row).emu.tick debugFlag
          = (e.cycle debugFlag row).emu.cycle debugFlag
              ((e.cycle debugFlag row).emu.Rom.get
                ⟨(e.cycle debugFlag row).emu.Register.PC, hlt⟩)) ∧
    (e.fetch = row → (e.cycle debugFlag row).halted = false → ∀ n,
      e.exec debugFlag (n + 1)
        = { emu := ((e.cycle debugFlag row).emu.exec debugFlag n).emu
            log := (e.cycle debugFlag row).log
              ++ ((e.cycle debugFlag row).emu.exec debugFlag n).log
            steps := ((e.cycle debugFlag row).emu.exec debugFlag n).steps + 1
            halted := ((e.cycle debugFlag row).emu.exec debugFlag n).halted }) ∧
    (e.fetch = row → (e.cycle debugFlag row).halted = true → ∀ n,
      e.exec debugFlag (n + 1)
        = { emu := (e.cycle debugFlag row).emu, log := (e.cycle debugFlag row).log,
            steps := 1, halted := true }) := by
  obtain ⟨e1, out, hd, hrom⟩ := dispatch_defined e (decode row).1 (decode row).2 h
  have hc : e.cycle debugFlag row
      = { emu := e1
          log := out ++ (if debugFlag then
            [LogLine.debugDump (decode row).1 (decode row).2 e1.Register e1.Port] else [])
          halted := decide (e1.Register.PC ≥ e1.Rom.length) } := by
    simp only [emulator.cycle, hd]
  refine ⟨?_, ?_, ?_, ?_, ?_⟩
  · rw [hc]
    simp
  · rw [hc]
    exact hrom
  · intro hh
    have hlt : (e.cycle debugFlag row).emu.Register.PC
        < (e.cycle debugFlag row).emu.Rom.length := by
      rw [hc] at hh ⊢
      simpa using hh
    have hf : (e.cycle debugFlag row).emu.fetch
        = (e.cycle debugFlag row).emu.Rom.get
            ⟨(e.cycle debugFlag row).emu.Register.PC, hlt⟩ := by
      unfold emulator.fetch
      rw [dif_neg (Nat.not_le_of_lt hlt)]
    refine ⟨hlt, hf, ?_⟩
    unfold emulator.tick
    rw [hf]
  · intro hf hh n
    subst hf
    have ht : (e.tick debugFlag).halted = false := hh
    simp only [emulator.exec, ht]
    rfl
  · intro hf hh n
    subst hf
    have ht : (e.tick debugFlag).halted = true := hh
    simp only [emulator.exec, ht, if_true]
    rfl

theorem halt_test_witness :
    (decode 0b11100101).1 ∈ definedOpCodes ∧
      ((stCarry.cycle false 0b11100101).halted = true ↔
        (stCarry.cycle false 0b11100101).emu.Register.PC
          ≥ (stCarry.cycle false 0b11100101).emu.Rom.length) ∧
      (stCarry.cycle false 0b11100101).halted = true ∧
      (stNoCarry.cycle false 0b11100000).halted = false :=
  ⟨by decide, (halt_test false stCarry 0b11100101 (by decide)).1, by decide, by decide⟩

/-! ## Construction -/

/-- C9: `newEmulator rom` fails with an error, and returns no engine, if and only if
`len(rom) > 16`; for every rom of 0..16 bytes it succeeds and returns the engine with A=0,
B=0, C=false, PC=0, Port.In=0, Port.Out=0 and the program `rom`. -/
theorem newEmulator_spec (rom : List Nat) :
    ((∃ msg, newEmulator rom = Except.error msg) ↔ rom.length > 16) ∧
    ((∀ e, newEmulator rom ≠ Except.ok e) ↔ rom.length > 16) ∧
    (rom.length ≤ 16 →
      newEmulator rom = Except.ok
        { Register := { A := 0, B := 0, C := false, PC := 0 }
          Port := { In := 0, Out := 0 }
          Rom := rom }) := by
  by_cases h : rom.length > 16
  · have he : newEmulator rom = Except.error "Rom size is over. Max size is 16." := by
      simp only [newEmulator, h, if_true]
    refine ⟨⟨fun _ => h, fun _ => ⟨_, he⟩⟩, ⟨fun _ => h, fun _ e => ?_⟩, fun hle => ?_⟩
    · rw [he]
      exact fun hne => Except.noConfusion hne
    · omega
  · have he : newEmulator rom = Except.ok
        { Register := { A := 0, B := 0, C := false, PC := 0 }
          Port := { In := 0, Out := 0 }
          Rom := rom } := by
      simp only [newEmulator, h, if_false]
    refine ⟨⟨fun hx => ?_, fun hx => absurd hx h⟩, ⟨fun hx => ?_, fun hx => absurd hx h⟩,
      fun _ => he⟩
    · obtain ⟨msg, hm⟩ := hx
      rw [he] at hm
      exact Except.noConfusion hm
    · exact absurd he (hx _)

theorem newEmulator_spec_witness :
    calcRom.length ≤ 16 ∧
      newEmulator calcRom = Except.ok
        { Register := { A := 0, B := 0, C := false, PC := 0 }
          Port := { In := 0, Out := 0 }
          Rom := calcRom } :=
  ⟨by decide, (newEmulator_spec calcRom).2.2 (by decide)⟩

/-! ## Accumulators stay within four bits -/

/-- An undefined opcode selects the `default` branch. -/
theorem dispatch_undefined (e : emulator) (op : opCode) (im : Nat)
    (h : op ∉ definedOpCodes) : e.dispatch op im = none := by
  simp only [definedOpCodes, List.mem_cons, List.mem_singleton, List.not_mem_nil, or_false,
    not_or] at h
  obtain ⟨h1, h2, h3, h4, h5, h6, h7, h8, h9, h10, h11, h12⟩ := h
  simp only [emulator.dispatch, h1, h2, h3, h4, h5, h6, h7, h8, h9, h10, h11, h12, if_false]

theorem mask_le (x : Nat) : x &&& 0x0f ≤ 15 := by
  rw [and_0x0f]
  omega

/-- Every instruction keeps the accumulators and the latches within four bits. -/
theorem dispatch_nibbles (e e1 : emulator) (op : opCode) (im : Nat) (out : List LogLine)
    (him : im ≤ 15) (hn : e.nibbles) (hd : e.dispatch op im = some (e1, out)) :
    e1.nibbles := by
  obtain ⟨hA, hB, hI, hO⟩ := hn
  by_cases h : op ∈ definedOpCodes
  · simp only [definedOpCodes, List.mem_cons, List.mem_singleton, List.not_mem_nil,
      or_false] at h
    rcases h with h | h | h | h | h | h | h | h | h | h | h | h <;> subst h
    · have h2 : some (e.movA im, ([] : List LogLine)) = some (e1, out) := hd
      cases h2
      exact ⟨him, hB, hI, hO⟩
    · have h2 : some (e.movB im, ([] : List LogLine)) = some (e1, out) := hd
      cases h2
      exact ⟨hA, him, hI, hO⟩
    · have h2 : some (e.movA2B, ([] : List LogLine)) = some (e1, out) := hd
      cases h2
      exact ⟨hA, hA, hI, hO⟩
    · have h2 : some (e.movB2A, ([] : List LogLine)) = some (e1, out) := hd
      cases h2
      exact ⟨hB, hB, hI, hO⟩
    · have h2 : some (e.addA im, ([] : List LogLine)) = some (e1, out) := hd
      cases h2
      exact ⟨mask_le _, hB, hI, hO⟩
    · have h2 : some (e.addB im, ([] : List LogLine)) = some (e1, out) := hd
      cases h2
      exact ⟨hA, mask_le _, hI, hO⟩
    · have h2 : some (e.jmp im, ([] : List LogLine)) = some (e1, out) := hd
      cases h2
      exact ⟨hA, hB, hI, hO⟩
    · have h2 : some (e.jnc im, ([] : List LogLine)) = some (e1, out) := hd
      cases h2
      refine ⟨?_, ?_, hI, hO⟩
      · show (e.jnc im).Register.A ≤ 15
        cases hc : e.Register.C <;> simpa [emulator.jnc, hc, register.incPC] using hA
      · show (e.jnc im).Register.B ≤ 15
        cases hc : e.Register.C <;> simpa [emulator.jnc, hc, register.incPC] using hB
    · have h2 : some (e.inA, ([] : List LogLine)) = some (e1, out) := hd
      cases h2
      exact ⟨hI, hB, hI, hO⟩
    · have h2 : some (e.inB, ([] : List LogLine)) = some (e1, out) := hd
      cases h2
      exact ⟨hA, hI, hI, hO⟩
    · have h2 : some (e.outB.1, [e.outB.2]) = some (e1, out) := hd
      cases h2
      exact ⟨hA, hB, hI, hB⟩
    · have h2 : some ((e.outIm im).1, [(e.outIm im).2]) = some (e1, out) := hd
      cases h2
      exact ⟨hA, hB, hI, him⟩
  · rw [dispatch_undefined e op im h] at hd
    cases hd

/-- One pass of the tick branch keeps the accumulators and the latches within four bits. -/
theorem cycle_nibbles (debugFlag : Bool) (e : emulator) (row : Nat) (hn : e.nibbles) :
    (e.cycle debugFlag row).emu.nibbles := by
  cases hd : e.dispatch (decode row).1 (decode row).2 with
  | none =>
    have hc : (e.cycle debugFlag row).emu = e := by
      simp only [emulator.cycle, hd]
    rw [hc]
    exact hn
  | some p =>
    obtain ⟨e1, out⟩ := p
    have hc : (e.cycle debugFlag row).emu = e1 := by
      simp only [emulator.cycle, hd]
    rw [hc]
    exact dispatch_nibbles e e1 _ _ out (decode_snd_le row) hn hd

/-- C10: in every state reachable from the initial state of `newEmulator rom` (so `rom` has
at most 16 bytes), after any number of steps, the collaborator latching any 4-bit values on
`Port.In` between steps, A ≤ 15, B ≤ 15 and Port.Out ≤ 15. -/
theorem reach_nibbles (debugFlag : Bool) (rom : List Nat) (e : emulator) (halted : Bool)
    (h : Reach debugFlag rom e halted) :
    e.Register.A ≤ 15 ∧ e.Register.B ≤ 15 ∧ e.Port.Out ≤ 15 := by
  have hn : e.nibbles := by
    induction h with
    | init e0 h0 =>
      unfold newEmulator at h0
      split at h0
      · cases h0
      · cases h0
        exact ⟨Nat.zero_le _, Nat.zero_le _, Nat.zero_le _, Nat.zero_le _⟩
    | tick e0 _ ih => exact cycle_nibbles debugFlag e0 e0.fetch ih
    | input e0 _ v hv _ ih => exact ⟨ih.1, ih.2.1, hv, ih.2.2.2⟩
  exact ⟨hn.1, hn.2.1, hn.2.2.2⟩

theorem reach_nibbles_witness :
    Reach false inAddRom ((((inAddStart.setIn 9).tick false).emu.setIn 15).tick false).emu
        ((((inAddStart.setIn 9).tick false).emu.setIn 15).tick false).halted ∧
      ((((inAddStart.setIn 9).tick false).emu.setIn 15).tick false).emu.Register.A ≤ 15 ∧
      ((((inAddStart.setIn 9).tick false).emu.setIn 15).tick false).emu.Register.B ≤ 15 ∧
      ((((inAddStart.setIn 9).tick false).emu.setIn 15).tick false).emu.Port.Out ≤ 15 :=
  ⟨Reach.tick _ (Reach.input _ _ 15 (by decide)
      (Reach.tick _ (Reach.input _ _ 9 (by decide) (Reach.init inAddStart rfl)))),
    reach_nibbles false inAddRom _ _
      (Reach.tick _ (Reach.input _ _ 15 (by decide)
        (Reach.tick _ (Reach.input _ _ 9 (by decide) (Reach.init inAddStart rfl)))))⟩

/-- Every state a call of `exec` passes through or ends in is reachable. -/
theorem exec_reach (debugFlag : Bool) (rom : List Nat) (n : Nat) (e : emulator)
    (h : Reach debugFlag rom e false) :
    Reach debugFlag rom (e.exec debugFlag n).emu (e.exec debugFlag n).halted := by
  induction n generalizing e with
  | zero => exact h
  | succ k ih =>
    have ht := Reach.tick e h
    cases hh : (e.tick debugFlag).halted with
    | true =>
      have hx : e.exec debugFlag (k + 1)
          = { emu := (e.tick debugFlag).emu, log := (e.tick debugFlag).log, steps := 1,
              halted := true } := by
        simp only [emulator.exec, hh, if_true]
      rw [hx]
      rw [hh] at ht
      exact ht
    | false =>
      rw [hh] at ht
      have hx : e.exec debugFlag (k + 1)
          = { emu := ((e.tick debugFlag).emu.exec debugFlag k).emu
              log := (e.tick debugFlag).log ++ ((e.tick debugFlag).emu.exec debugFlag k).log
              steps := ((e.tick debugFlag).emu.exec debugFlag k).steps + 1
              halted := ((e.tick debugFlag).emu.exec debugFlag k).halted } := by
        simp only [emulator.exec, hh]
        rfl
      rw [hx]
      exact ih _ ht

/-! ## The program counter along a run -/

/-- What `newEmulator` returns when it succeeds. -/
theorem newEmulator_ok (rom : List Nat) (e : emulator) (h : newEmulator rom = Except.ok e) :
    e = initial rom ∧ rom.length ≤ 16 := by
  unfold newEmulator at h
  split at h
  · cases h
  · cases h
    exact ⟨rfl, by omega⟩

/-- The tick branch when the switch selects an instruction. -/
theorem cycle_some (debugFlag : Bool) (e e1 : emulator) (row : Nat) (out : List LogLine)
    (hd : e.dispatch (decode row).1 (decode row).2 = some (e1, out)) :
    e.cycle debugFlag row
      = { emu := e1
          log := out ++ (if debugFlag then
            [LogLine.debugDump (decode row).1 (decode row).2 e1.Register e1.Port] else [])
          halted := decide (e1.Register.PC ≥ e1.Rom.length) } := by
  simp only [emulator.cycle, hd]

/-- The tick branch when the switch takes the `default` case. -/
theorem cycle_none (debugFlag : Bool) (e : emulator) (row : Nat)
    (hd : e.dispatch (decode row).1 (decode row).2 = none) :
    e.cycle debugFlag row = { emu := e, log := [LogLine.opCodeError], halted := true } := by
  simp only [emulator.cycle, hd]

/-- The switch, case by case: what the selected instruction does to the program, the input
latch and the program counter. -/
theorem dispatch_cases (e : emulator) (op : opCode) (im : Nat) :
    (op ∉ definedOpCodes ∧ e.dispatch op im = none) ∨
    ∃ e1 out, e.dispatch op im = some (e1, out) ∧ e1.Rom = e.Rom ∧
      e1.Port.In = e.Port.In ∧
      ((op ∈ nonJumpOpCodes ∧ e1.Register.PC = (e.Register.PC + 1) % 256) ∨
        (op = opCode.jmp ∧ e1.Register.PC = im) ∨
        (op = opCode.jnc ∧
          (e1.Register.PC = im ∨ e1.Register.PC = (e.Register.PC + 1) % 256))) := by
  by_cases h : op ∈ definedOpCodes
  · right
    simp only [definedOpCodes, List.mem_cons, List.mem_singleton, List.not_mem_nil,
      or_false] at h
    rcases h with h | h | h | h | h | h | h | h | h | h | h | h <;> subst h
    · exact ⟨e.movA im, [], rfl, rfl, rfl, Or.inl ⟨by decide, rfl⟩⟩
    · exact ⟨e.movB im, [], rfl, rfl, rfl, Or.inl ⟨by decide, rfl⟩⟩
    · exact ⟨e.movA2B, [], rfl, rfl, rfl, Or.inl ⟨by decide, rfl⟩⟩
    · exact ⟨e.movB2A, [], rfl, rfl, rfl, Or.inl ⟨by decide, rfl⟩⟩
    · exact ⟨e.addA im, [], rfl, rfl, rfl, Or.inl ⟨by decide, rfl⟩⟩
    · exact ⟨e.addB im, [], rfl, rfl, rfl, Or.inl ⟨by decide, rfl⟩⟩
    · exact ⟨e.jmp im, [], rfl, rfl, rfl, Or.inr (Or.inl ⟨rfl, rfl⟩)⟩
    · refine ⟨e.jnc im, [], rfl, rfl, rfl, Or.inr (Or.inr ⟨rfl, ?_⟩)⟩
      cases hc : e.Register.C <;> simp [emulator.jnc, hc, register.incPC]
    · exact ⟨e.inA, [], rfl, rfl, rfl, Or.inl ⟨by decide, rfl⟩⟩
    · exact ⟨e.inB, [], rfl, rfl, rfl, Or.inl ⟨by decide, rfl⟩⟩
    · exact ⟨e.outB.1, [e.outB.2], rfl, rfl, rfl, Or.inl ⟨by decide, rfl⟩⟩
    · exact ⟨(e.outIm im).1, [(e.outIm im).2], rfl, rfl, rfl, Or.inl ⟨by decide, rfl⟩⟩
  · exact Or.inl ⟨h, dispatch_undefined e op im h⟩

/-- The tick branch, case by case, for the fetched byte `row`. -/
theorem cycle_cases (debugFlag : Bool) (e : emulator) (row : Nat) :
    (e.cycle debugFlag row).emu.Rom = e.Rom ∧
    (e.cycle debugFlag row).emu.Port.In = e.Port.In ∧
    (((decode row).1 ∉ definedOpCodes ∧ (e.cycle debugFlag row).emu = e ∧
        (e.cycle debugFlag row).halted = true) ∨
      ((e.cycle debugFlag row).halted
          = decide ((e.cycle debugFlag row).emu.Register.PC ≥ e.Rom.length) ∧
        (((decode row).1 ∈ nonJumpOpCodes ∧
            (e.cycle debugFlag row).emu.Register.PC = (e.Register.PC + 1) % 256) ∨
          ((decode row).1 = opCode.jmp ∧
            (e.cycle debugFlag row).emu.Register.PC = (decode row).2) ∨
          ((decode row).1 = opCode.jnc ∧
            ((e.cycle debugFlag row).emu.Register.PC = (decode row).2 ∨
              (e.cycle debugFlag row).emu.Register.PC = (e.Register.PC + 1) % 256))))) := by
  rcases dispatch_cases e (decode row).1 (decode row).2 with ⟨hu, hd⟩ | ⟨e1, out, hd, hrom, hin, hpc⟩
  · rw [cycle_none debugFlag e row hd]
    exact ⟨rfl, rfl, Or.inl ⟨hu, rfl, rfl⟩⟩
  · rw [cycle_some debugFlag e e1 row out hd]
    refine ⟨hrom, hin, Or.inr ⟨?_, hpc⟩⟩
    show decide (e1.Register.PC ≥ e1.Rom.length) = decide (e1.Register.PC ≥ e.Rom.length)
    rw [hrom]

/-- The invariant of the run loop on the program counter: the program is the one given to
`newEmulator`, a Running state has PC inside the program (or is the initial state of the
empty program), and PC is at most 15 except in the Halted state of a 16-byte program that
ran off its end. -/
theorem reach_pc (debugFlag : Bool) (rom : List Nat) (e : emulator) (halted : Bool)
    (h : Reach debugFlag rom e halted) :
    e.Rom = rom ∧ rom.length ≤ 16 ∧
    (halted = false → e.Register.PC < rom.length ∨ (rom.length = 0 ∧ e.Register.PC = 0)) ∧
    (e.Register.PC ≤ 15 ∨ (e.Register.PC = 16 ∧ rom.length = 16 ∧ halted = true)) := by
  induction h with
  | init e0 h0 =>
    obtain ⟨he, hlen⟩ := newEmulator_ok rom e0 h0
    subst he
    refine ⟨rfl, hlen, fun _ => ?_, Or.inl (Nat.zero_le _)⟩
    show 0 < rom.length ∨ (rom.length = 0 ∧ 0 = 0)
    omega
  | tick e0 _ ih =>
    obtain ⟨hrom, hlen, hrun, _⟩ := ih
    have hpc0 : e0.Register.PC ≤ 15 := by
      rcases hrun rfl with h1 | h1 <;> omega
    have hinc : (e0.Register.PC + 1) % 256 = e0.Register.PC + 1 := Nat.mod_eq_of_lt (by omega)
    obtain ⟨hr, _, hc⟩ := cycle_cases debugFlag e0 e0.fetch
    have him := decode_snd_le e0.fetch
    rw [hrom] at hc hr
    unfold emulator.tick
    refine ⟨hr, hlen, ?_, ?_⟩
    · intro hh
      rcases hc with ⟨_, _, hx⟩ | ⟨hx, _⟩
      · rw [hx] at hh
        cases hh
      · rw [hh] at hx
        have := of_decide_eq_false hx.symm
        omega
    · rcases hc with ⟨_, hx, _⟩ | ⟨hx, hy⟩
      · rw [hx]
        exact Or.inl hpc0
      · have hdec : (e0.cycle debugFlag e0.fetch).emu.Register.PC ≥ rom.length →
            (e0.cycle debugFlag e0.fetch).halted = true := by
          intro hge
          rw [hx]
          exact decide_eq_true hge
        have hstep : (e0.cycle debugFlag e0.fetch).emu.Register.PC ≤ 15 ∨
            (e0.cycle debugFlag e0.fetch).emu.Register.PC = e0.Register.PC + 1 := by
          rcases hy with ⟨_, hy⟩ | ⟨_, hy⟩ | ⟨_, hy | hy⟩
          · exact Or.inr (hy.trans hinc)
          · exact Or.inl (hy ▸ him)
          · exact Or.inl (hy ▸ him)
          · exact Or.inr (hy.trans hinc)
        rcases hstep with hs | hs
        · exact Or.inl hs
        · by_cases h15 : e0.Register.PC + 1 ≤ 15
          · exact Or.inl (by omega)
          · have hlt : e0.Register.PC < rom.length := by
              rcases hrun rfl with h1 | h1 <;> omega
            exact Or.inr ⟨by omega, by omega, hdec (by omega)⟩
  | input e0 hl v hv _ ih => exact ih

/-- C11 as stated fails: the 16-byte program `addRom16` is accepted by `newEmulator`, and
after its sixteenth step the engine is Halted in a reachable state with PC = 16, outside
0..15. -/
theorem pc_out_of_nibble_range :
    newEmulator addRom16 = Except.ok (initial addRom16) ∧ addRom16.length = 16 ∧
    Reach false addRom16 ((initial addRom16).exec false 16).emu
      ((initial addRom16).exec false 16).halted ∧
    ((initial addRom16).exec false 16).steps = 16 ∧
    ((initial addRom16).exec false 16).halted = true ∧
    ((initial addRom16).exec false 16).emu.Register.PC = 16 ∧
    ¬ ((initial addRom16).exec false 16).emu.Register.PC ≤ 15 :=
  ⟨rfl, rfl, exec_reach false addRom16 16 (initial addRom16) (Reach.init _ rfl),
    by decide, by decide, by decide, by decide⟩

/-- C11, amended: in every state reachable from the initial state of `newEmulator rom`, PC is
in 0..16; it is in 0..15 in every Running state and whenever the program has fewer than 16
bytes; PC = 16 occurs only in the Halted state of a program of exactly 16 bytes. -/
theorem reach_pc_range (debugFlag : Bool) (rom : List Nat) (e : emulator) (halted : Bool)
    (h : Reach debugFlag rom e halted) :
    e.Register.PC ≤ 16 ∧
    (halted = false → e.Register.PC ≤ 15) ∧
    (rom.length < 16 → e.Register.PC ≤ 15) ∧
    (e.Register.PC = 16 → halted = true ∧ rom.length = 16) := by
  obtain ⟨_, _, _, hpc⟩ := reach_pc debugFlag rom e halted h
  refine ⟨?_, ?_, ?_, ?_⟩
  · rcases hpc with h1 | h1 <;> omega
  · intro hh
    rcases hpc with h1 | ⟨_, _, h3⟩
    · exact h1
    · rw [hh] at h3
      cases h3
  · intro hl
    rcases hpc with h1 | h1 <;> omega
  · intro h16
    rcases hpc with h1 | ⟨_, h2, h3⟩
    · omega
    · exact ⟨h3, h2⟩

theorem reach_pc_range_witness :
    Reach false addRom16 ((initial addRom16).tick false).emu
        ((initial addRom16).tick false).halted ∧
      ((initial addRom16).tick false).emu.Register.PC ≤ 16 :=
  ⟨Reach.tick _ (Reach.init _ rfl),
    (reach_pc_range false addRom16 _ _ (Reach.tick _ (Reach.init _ rfl))).1⟩

/-- C19: in every state reachable from the initial state of `newEmulator rom` by steps of
the run loop, PC ≤ 16; a step is only executed from a Running state, where PC ≤ 15, so the
8-bit `PC++` never wraps; and every reachable state with PC = 16 is Halted. -/
theorem reach_pc_no_wrap (debugFlag : Bool) (rom : List Nat) (e : emulator) (halted : Bool)
    (h : Reach debugFlag rom e halted) :
    e.Register.PC ≤ 16 ∧
    (halted = false → e.Register.incPC.PC = e.Register.PC + 1) ∧
    (e.Register.PC = 16 → halted = true) := by
  obtain ⟨_, _, _, hpc⟩ := reach_pc debugFlag rom e halted h
  refine ⟨?_, ?_, ?_⟩
  · rcases hpc with h1 | h1 <;> omega
  · intro hh
    show (e.Register.PC + 1) % 256 = e.Register.PC + 1
    rcases hpc with h1 | ⟨_, _, h3⟩
    · exact Nat.mod_eq_of_lt (by omega)
    · rw [hh] at h3
      cases h3
  · intro h16
    rcases hpc with h1 | ⟨_, _, h3⟩
    · omega
    · exact h3

theorem reach_pc_no_wrap_witness :
    Reach false addRom16 ((initial addRom16).exec false 16).emu
        ((initial addRom16).exec false 16).halted ∧
      ((initial addRom16).exec false 16).emu.Register.PC = 16 ∧
      ((initial addRom16).exec false 16).halted = true :=
  ⟨exec_reach false addRom16 16 (initial addRom16) (Reach.init _ rfl), by decide,
    (reach_pc_no_wrap false addRom16 _ _
      (exec_reach false addRom16 16 (initial addRom16) (Reach.init _ rfl))).2.2 (by decide)⟩

/-! ## The out-of-bounds branch of `fetch` -/

/-- Every address a run fetches from lies inside a non-empty program. -/
theorem fetches_lt (debugFlag : Bool) (rom : List Nat) (hne : rom ≠ []) (n : Nat)
    (e : emulator) (h : Reach debugFlag rom e false) :
    ∀ pc ∈ e.fetches debugFlag n, pc < rom.length := by
  have hpos : 0 < rom.length := List.length_pos.mpr hne
  induction n generalizing e with
  | zero =>
    intro pc hpc
    cases hpc
  | succ k ih =>
    have hlt : e.Register.PC < rom.length := by
      rcases (reach_pc debugFlag rom e false h).2.2.1 rfl with h1 | h1 <;> omega
    have ht := Reach.tick e h
    intro pc hpc
    cases hh : (e.tick debugFlag).halted with
    | true =>
      simp only [emulator.fetches, hh, if_true, List.mem_singleton] at hpc
      rw [hpc]
      exact hlt
    | false =>
      rw [hh] at ht
      simp only [emulator.fetches, hh] at hpc
      rcases List.mem_cons.mp hpc with h1 | h1
      · rw [h1]
        exact hlt
      · exact ih _ ht pc h1

/-- C20: for a non-empty rom of at most 16 bytes, every step the run loop executes from the
initial state starts with PC < len(rom): the state is Running only with PC inside the
program, `fetch` returns the program byte at PC and never takes its out-of-bounds branch, and
a state with PC at or past the end is Halted.  For the empty rom the run takes the
out-of-bounds branch once: it executes exactly one step, the default ADD A,0, and halts with
PC=1, A=B=0, C=false and no output event. -/
theorem fetch_in_bounds (debugFlag : Bool) (rom : List Nat) :
    (rom ≠ [] → ∀ e, Reach debugFlag rom e false →
      ∃ hlt : e.Register.PC < e.Rom.length, e.Rom = rom ∧
        e.fetch = e.Rom.get ⟨e.Register.PC, hlt⟩) ∧
    (rom ≠ [] → ∀ e halted, Reach debugFlag rom e halted →
      e.Register.PC ≥ rom.length → halted = true) ∧
    (rom ≠ [] → ∀ e n, newEmulator rom = Except.ok e →
      ∀ pc ∈ e.fetches debugFlag n, pc < rom.length) ∧
    newEmulator [] = Except.ok (initial []) ∧
    (initial []).fetch = 0 ∧
    decode 0 = (opCode.addA, 0) ∧
    (∀ n, (initial []).fetches debugFlag (n + 1) = [0]) ∧
    (∀ n, ((initial []).exec debugFlag (n + 1)).steps = 1 ∧
      ((initial []).exec debugFlag (n + 1)).halted = true ∧
      ((initial []).exec debugFlag (n + 1)).emu.Register
        = { A := 0, B := 0, C := false, PC := 1 } ∧
      ((initial []).exec debugFlag (n + 1)).emu.Port = { In := 0, Out := 0 } ∧
      outputs ((initial []).exec debugFlag (n + 1)).log = [] ∧
      LogLine.opCodeError ∉ ((initial []).exec debugFlag (n + 1)).log) := by
  refine ⟨?_, ?_, ?_, rfl, rfl, rfl, ?_, ?_⟩
  · intro hne e h
    obtain ⟨hrom, _, hrun, _⟩ := reach_pc debugFlag rom e false h
    have hpos : 0 < rom.length := List.length_pos.mpr hne
    have hlt : e.Register.PC < e.Rom.length := by
      rw [hrom]
      rcases hrun rfl with h1 | h1 <;> omega
    refine ⟨hlt, hrom, ?_⟩
    unfold emulator.fetch
    rw [dif_neg (Nat.not_le_of_lt hlt)]
  · intro hne e halted h hge
    obtain ⟨_, _, hrun, _⟩ := reach_pc debugFlag rom e halted h
    have hpos : 0 < rom.length := List.length_pos.mpr hne
    cases halted with
    | true => rfl
    | false => rcases hrun rfl with h1 | h1 <;> omega
  · intro hne e n he
    exact fetches_lt debugFlag rom hne n e (Reach.init e he)
  · intro n
    cases debugFlag <;> rfl
  · intro n
    cases debugFlag
    · have hx : (initial []).exec false (n + 1)
          = { emu := { Register := { A := 0, B := 0, C := false, PC := 1 }
                       Port := { In := 0, Out := 0 }, Rom := [] }
              log := [], steps := 1, halted := true } := rfl
      rw [hx]
      exact ⟨rfl, rfl, rfl, rfl, rfl, by decide⟩
    · have hx : (initial []).exec true (n + 1)
          = { emu := { Register := { A := 0, B := 0, C := false, PC := 1 }
                       Port := { In := 0, Out := 0 }, Rom := [] }
              log := [LogLine.debugDump 0 0 { A := 0, B := 0, C := false, PC := 1 }
                { In := 0, Out := 0 }]
              steps := 1, halted := true } := rfl
      rw [hx]
      exact ⟨rfl, rfl, rfl, rfl, rfl, by decide⟩

theorem fetch_in_bounds_witness :
    (calcRom ≠ [] ∧ Reach false calcRom ((initial calcRom).tick false).emu false) ∧
      ((initial calcRom).tick false).emu.fetch = 0b00000001 :=
  ⟨⟨by decide, Reach.tick (initial calcRom) (Reach.init (initial calcRom) rfl)⟩,
    ((fetch_in_bounds false calcRom).1 (by decide) _
      (Reach.tick (initial calcRom) (Reach.init (initial calcRom) rfl))).2.2⟩

/-! ## Output events and frame -/

/-- The debug dump carries no output event. -/
theorem outputs_append_dump (debugFlag : Bool) (out : List LogLine) (op : opCode) (im : Nat)
    (r : register) (p : port) :
    outputs (out ++ (if debugFlag then [LogLine.debugDump op im r p] else []))
      = outputs out := by
  cases debugFlag <;> simp [outputs, LogLine.outValue]

/-- The operand of a byte whose opcode keeps its operand field. -/
theorem decode_snd_of_operand (row : Nat)
    (h : (decode row).1 ∉ [opCode.movA2B, opCode.movB2A, opCode.inA, opCode.inB,
      opCode.outB]) : (decode row).2 = row % 16 := by
  rw [decode_fst] at h
  simp only [List.mem_cons, List.mem_singleton, List.not_mem_nil, or_false] at h
  unfold decode
  rw [if_neg (by rw [shr_4]; exact h)]
  exact and_0x0f row

/-- C12: a step emits an output event if and only if the executed instruction is OUT B or
OUT im; it then emits exactly one event, whose value is the new Port.Out: the current B for
OUT B, the operand `im` (the low nibble of the byte) for OUT im, with A and B unchanged.  A
step executing any of the other ten instructions, or an undefined opcode, leaves Port.Out
unchanged and emits nothing.  No step changes Port.In or the program. -/
theorem output_events (debugFlag : Bool) (e : emulator) (row : Nat) :
    (outputs (e.cycle debugFlag row).log ≠ [] ↔
      ((decode row).1 = opCode.outB ∨ (decode row).1 = opCode.outIm)) ∧
    ((decode row).1 = opCode.outB →
      outputs (e.cycle debugFlag row).log = [(e.cycle debugFlag row).emu.Port.Out] ∧
      (e.cycle debugFlag row).emu.Port.Out = e.Register.B ∧
      (e.cycle debugFlag row).emu.Register.A = e.Register.A ∧
      (e.cycle debugFlag row).emu.Register.B = e.Register.B) ∧
    ((decode row).1 = opCode.outIm →
      outputs (e.cycle debugFlag row).log = [(e.cycle debugFlag row).emu.Port.Out] ∧
      (e.cycle debugFlag row).emu.Port.Out = (decode row).2 ∧
      (decode row).2 = row % 16 ∧
      (e.cycle debugFlag row).emu.Register.A = e.Register.A ∧
      (e.cycle debugFlag row).emu.Register.B = e.Register.B) ∧
    ((decode row).1 ∈ [opCode.movA, opCode.movB, opCode.movA2B, opCode.movB2A, opCode.addA,
        opCode.addB, opCode.jmp, opCode.jnc, opCode.inA, opCode.inB] →
      (e.cycle debugFlag row).emu.Port.Out = e.Port.Out ∧
      outputs (e.cycle debugFlag row).log = []) ∧
    ((decode row).1 ∉ definedOpCodes →
      (e.cycle debugFlag row).emu.Port.Out = e.Port.Out ∧
      outputs (e.cycle debugFlag row).log = []) ∧
    (e.cycle debugFlag row).emu.Port.In = e.Port.In ∧
    (e.cycle debugFlag row).emu.Rom = e.Rom := by
  have hB : (decode row).1 = opCode.outB →
      outputs (e.cycle debugFlag row).log = [(e.cycle debugFlag row).emu.Port.Out] ∧
      (e.cycle debugFlag row).emu.Port.Out = e.Register.B ∧
      (e.cycle debugFlag row).emu.Register.A = e.Register.A ∧
      (e.cycle debugFlag row).emu.Register.B = e.Register.B := by
    intro h
    have hd : e.dispatch (decode row).1 (decode row).2 = some (e.outB.1, [e.outB.2]) := by
      rw [h]
      rfl
    rw [cycle_some debugFlag e _ row _ hd]
    exact ⟨outputs_append_dump debugFlag _ _ _ _ _, rfl, rfl, rfl⟩
  have hI : (decode row).1 = opCode.outIm →
      outputs (e.cycle debugFlag row).log = [(e.cycle debugFlag row).emu.Port.Out] ∧
      (e.cycle debugFlag row).emu.Port.Out = (decode row).2 ∧
      (decode row).2 = row % 16 ∧
      (e.cycle debugFlag row).emu.Register.A = e.Register.A ∧
      (e.cycle debugFlag row).emu.Register.B = e.Register.B := by
    intro h
    have hd : e.dispatch (decode row).1 (decode row).2
        = some ((e.outIm (decode row).2).1, [(e.outIm (decode row).2).2]) := by
      rw [h]
      rfl
    rw [cycle_some debugFlag e _ row _ hd]
    refine ⟨outputs_append_dump debugFlag _ _ _ _ _, rfl, ?_, rfl, rfl⟩
    exact decode_snd_of_operand row (by rw [h]; decide)
  have hO : (decode row).1 ∈ [opCode.movA, opCode.movB, opCode.movA2B, opCode.movB2A,
        opCode.addA, opCode.addB, opCode.jmp, opCode.jnc, opCode.inA, opCode.inB] →
      (e.cycle debugFlag row).emu.Port.Out = e.Port.Out ∧
      outputs (e.cycle debugFlag row).log = [] := by
    intro h
    simp only [List.mem_cons, List.mem_singleton, List.not_mem_nil, or_false] at h
    have hd : ∃ e1, e.dispatch (decode row).1 (decode row).2 = some (e1, [])
        ∧ e1.Port = e.Port := by
      rcases h with h | h | h | h | h | h | h | h | h | h <;> rw [h]
      · exact ⟨e.movA _, rfl, rfl⟩
      · exact ⟨e.movB _, rfl, rfl⟩
      · exact ⟨e.movA2B, rfl, rfl⟩
      · exact ⟨e.movB2A, rfl, rfl⟩
      · exact ⟨e.addA _, rfl, rfl⟩
      · exact ⟨e.addB _, rfl, rfl⟩
      · exact ⟨e.jmp _, rfl, rfl⟩
      · exact ⟨e.jnc _, rfl, rfl⟩
      · exact ⟨e.inA, rfl, rfl⟩
      · exact ⟨e.inB, rfl, rfl⟩
    obtain ⟨e1, hd, hp⟩ := hd
    rw [cycle_some debugFlag e e1 row _ hd]
    refine ⟨?_, outputs_append_dump debugFlag _ _ _ _ _⟩
    show e1.Port.Out = e.Port.Out
    rw [hp]
  have hU : (decode row).1 ∉ definedOpCodes →
      (e.cycle debugFlag row).emu.Port.Out = e.Port.Out ∧
      outputs (e.cycle debugFlag row).log = [] := by
    intro h
    rw [cycle_none debugFlag e row (dispatch_undefined e _ _ h)]
    exact ⟨rfl, rfl⟩
  refine ⟨⟨?_, ?_⟩, hB, hI, hO, hU, (cycle_cases debugFlag e row).2.1,
    (cycle_cases debugFlag e row).1⟩
  · intro hne
    by_contra hn
    rw [not_or] at hn
    by_cases hdef : (decode row).1 ∈ definedOpCodes
    · apply hne
      apply (hO _).2
      simp only [definedOpCodes, List.mem_cons, List.mem_singleton, List.not_mem_nil,
        or_false] at hdef
      rcases hdef with h | h | h | h | h | h | h | h | h | h | h | h <;>
        first
          | exact absurd h hn.1
          | exact absurd h hn.2
          | (rw [h]; decide)
    · exact hne (hU hdef).2
  · intro h
    rcases h with h | h
    · rw [(hB h).1]
      exact List.cons_ne_nil _ _
    · rw [(hI h).1]
      exact List.cons_ne_nil _ _

theorem output_events_witness :
    (decode 0b10010000).1 = opCode.outB ∧
      outputs (stCarry.cycle false 0b10010000).log = [3] ∧
      (stCarry.cycle false 0b10010000).emu.Port.Out = 3 :=
  ⟨by decide, ((output_events false stCarry 0b10010000).2.1 (by decide)).1,
    ((output_events false stCarry 0b10010000).2.1 (by decide)).2.1⟩

/-! ## The default instruction -/

/-- C13: for every state whose PC is greater than or equal to the program length `fetch`
returns the byte 0, and for PC below the length it returns the program byte at index PC.
The byte 0 decodes to ADD A,0, and the step on it, for A ≤ 15, changes nothing except PC,
which is incremented by one (the `uint8` increment `(PC + 1) mod 256`, which is `PC + 1`
below 255): A, B, the carry, Port.In, Port.Out and the program are unchanged, no output event
is emitted and no error is logged. -/
theorem fetch_default (debugFlag : Bool) (e : emulator) :
    (e.Rom.length ≤ e.Register.PC → e.fetch = 0 ∧ e.tick debugFlag = e.cycle debugFlag 0) ∧
    (∀ h : e.Register.PC < e.Rom.length, e.fetch = e.Rom.get ⟨e.Register.PC, h⟩) ∧
    decode 0 = (opCode.addA, 0) ∧
    (e.cycle debugFlag 0).emu = e.addA 0 ∧
    (e.Register.A ≤ 15 →
      (e.cycle debugFlag 0).emu.Register.A = e.Register.A ∧
      (e.cycle debugFlag 0).emu.Register.B = e.Register.B ∧
      (e.cycle debugFlag 0).emu.Register.C = e.Register.C ∧
      (e.cycle debugFlag 0).emu.Register.PC = (e.Register.PC + 1) % 256 ∧
      (e.Register.PC < 255 → (e.cycle debugFlag 0).emu.Register.PC = e.Register.PC + 1) ∧
      (e.cycle debugFlag 0).emu.Port = e.Port ∧
      (e.cycle debugFlag 0).emu.Rom = e.Rom ∧
      outputs (e.cycle debugFlag 0).log = [] ∧
      LogLine.opCodeError ∉ (e.cycle debugFlag 0).log) := by
  have hd : e.dispatch (decode 0).1 (decode 0).2 = some (e.addA 0, []) := rfl
  have hc := cycle_some debugFlag e (e.addA 0) 0 [] hd
  refine ⟨?_, ?_, rfl, by rw [hc], ?_⟩
  · intro hge
    have hf : e.fetch = 0 := by
      unfold emulator.fetch
      rw [dif_pos hge]
    refine ⟨hf, ?_⟩
    unfold emulator.tick
    rw [hf]
  · intro hlt
    unfold emulator.fetch
    rw [dif_neg (Nat.not_le_of_lt hlt)]
  · intro hA
    have h256 : (e.Register.A + 0) % 256 = e.Register.A := Nat.mod_eq_of_lt (by omega)
    have h16 : e.Register.A % 16 = e.Register.A := Nat.mod_eq_of_lt (by omega)
    have hn : ¬ e.Register.A > 15 := by omega
    rw [hc]
    refine ⟨?_, rfl, ?_, rfl, ?_, rfl, rfl, outputs_append_dump debugFlag _ _ _ _ _, ?_⟩
    · simp only [emulator.addA, register.incPC, and_0x0f, h256, h16]
    · simp only [emulator.addA, register.incPC, h256, hn, if_false]
    · intro hpc
      show (e.Register.PC + 1) % 256 = e.Register.PC + 1
      exact Nat.mod_eq_of_lt (by omega)
    · cases debugFlag <;> simp

theorem fetch_default_witness :
    (stCarry.setIn 2).Register.A ≤ 15 ∧
      ((stCarry.setIn 2).cycle false 0).emu.Register
        = { A := 12, B := 3, C := true, PC := 3 } ∧
      outputs ((stCarry.setIn 2).cycle false 0).log = [] :=
  ⟨by decide, by decide,
    ((fetch_default false (stCarry.setIn 2)).2.2.2.2 (by decide)).2.2.2.2.2.2.2.1⟩

/-! ## MOV A,im, one full step -/

/-- The byte of a MOV A,im: opcode 0011, operand `im`. -/
theorem decode_movA (im : Nat) (him : im ≤ 15) :
    0b00110000 ||| im = 0b00110000 + im ∧
      decode (0b00110000 ||| im) = (opCode.movA, im) := by
  interval_cases im <;> exact ⟨rfl, rfl⟩

/-- C16: for every `im` in 0..15 and every state whose program holds the byte
`0b0011_0000 | im` at address PC, one full step (fetch, decode, dispatch) leaves A = im and
carry = false, with B, the port and the program unchanged and PC incremented by one (the
`uint8` increment `(PC + 1) mod 256`, which is `PC + 1` below 255). -/
theorem movA_step (debugFlag : Bool) (e : emulator) (im : Nat) (him : im ≤ 15)
    (hlt : e.Register.PC < e.Rom.length)
    (hb : e.Rom.get ⟨e.Register.PC, hlt⟩ = 0b00110000 ||| im) :
    (e.tick debugFlag).emu.Register.A = im ∧
    (e.tick debugFlag).emu.Register.C = false ∧
    (e.tick debugFlag).emu.Register.B = e.Register.B ∧
    (e.tick debugFlag).emu.Port = e.Port ∧
    (e.tick debugFlag).emu.Rom = e.Rom ∧
    (e.tick debugFlag).emu.Register.PC = (e.Register.PC + 1) % 256 ∧
    (e.Register.PC < 255 → (e.tick debugFlag).emu.Register.PC = e.Register.PC + 1) ∧
    outputs (e.tick debugFlag).log = [] := by
  have hf : e.fetch = 0b00110000 ||| im := by
    unfold emulator.fetch
    rw [dif_neg (Nat.not_le_of_lt hlt)]
    exact hb
  have hdec := (decode_movA im him).2
  have hd : e.dispatch (decode (0b00110000 ||| im)).1 (decode (0b00110000 ||| im)).2
      = some (e.movA im, []) := by
    rw [hdec]
    rfl
  have hc := cycle_some debugFlag e (e.movA im) _ [] hd
  unfold emulator.tick
  rw [hf, hc]
  refine ⟨rfl, rfl, rfl, rfl, rfl, rfl, ?_, outputs_append_dump debugFlag _ _ _ _ _⟩
  intro hpc
  show (e.Register.PC + 1) % 256 = e.Register.PC + 1
  exact Nat.mod_eq_of_lt (by omega)

theorem movA_step_witness :
    ((1 : Nat) ≤ 15 ∧ (initial calcRom).Register.PC < 255 ∧
        (initial calcRom).Rom.get ⟨(initial calcRom).Register.PC, by decide⟩
          = 0b00110000 ||| 1) ∧
      ((initial calcRom).tick false).emu.Register.A = 1 ∧
      ((initial calcRom).tick false).emu.Register.PC = 1 :=
  ⟨⟨by decide, by decide, by decide⟩,
    (movA_step false (initial calcRom) 1 (by decide) (by decide) (by decide)).1,
    (movA_step false (initial calcRom) 1 (by decide) (by decide)
      (by decide)).2.2.2.2.2.2.1 (by decide)⟩

/-! ## Unfolding the run loop -/

theorem exec_succ_halted (debugFlag : Bool) (n : Nat) (e : emulator)
    (h : (e.tick debugFlag).halted = true) :
    e.exec debugFlag (n + 1)
      = { emu := (e.tick debugFlag).emu, log := (e.tick debugFlag).log, steps := 1,
          halted := true } := by
  simp only [emulator.exec, h, if_true]

theorem exec_succ_running (debugFlag : Bool) (n : Nat) (e : emulator)
    (h : (e.tick debugFlag).halted = false) :
    e.exec debugFlag (n + 1)
      = { emu := ((e.tick debugFlag).emu.exec debugFlag n).emu
          log := (e.tick debugFlag).log ++ ((e.tick debugFlag).emu.exec debugFlag n).log
          steps := ((e.tick debugFlag).emu.exec debugFlag n).steps + 1
          halted := ((e.tick debugFlag).emu.exec debugFlag n).halted } := by
  simp only [emulator.exec, h]
  rfl

theorem fetches_succ_halted (debugFlag : Bool) (n : Nat) (e : emulator)
    (h : (e.tick debugFlag).halted = true) :
    e.fetches debugFlag (n + 1) = [e.Register.PC] := by
  simp only [emulator.fetches, h, if_true]

theorem fetches_succ_running (debugFlag : Bool) (n : Nat) (e : emulator)
    (h : (e.tick debugFlag).halted = false) :
    e.fetches debugFlag (n + 1)
      = e.Register.PC :: (e.tick debugFlag).emu.fetches debugFlag n := by
  simp only [emulator.fetches, h]
  rfl

/-- The run fetches once per processed tick. -/
theorem fetches_length (debugFlag : Bool) (n : Nat) (e : emulator) :
    (e.fetches debugFlag n).length = (e.exec debugFlag n).steps := by
  induction n generalizing e with
  | zero => rfl
  | succ k ih =>
    cases hh : (e.tick debugFlag).halted with
    | true => rw [fetches_succ_halted debugFlag k e hh, exec_succ_halted debugFlag k e hh]; rfl
    | false =>
      rw [fetches_succ_running debugFlag k e hh, exec_succ_running debugFlag k e hh]
      simp only [List.length_cons, ih]

/-- `fetch` inside the program reads a program byte. -/
theorem fetch_mem (e : emulator) (h : e.Register.PC < e.Rom.length) : e.fetch ∈ e.Rom := by
  unfold emulator.fetch
  rw [dif_neg (Nat.not_le_of_lt h)]
  exact List.get_mem _ _ _

/-! ## Programs without jumps -/

/-- A tick on a byte that is neither a jump nor undefined: PC is incremented and the halt
test is taken on it. -/
theorem tick_nonjump (debugFlag : Bool) (e : emulator)
    (h : (decode e.fetch).1 ∈ nonJumpOpCodes) :
    (e.tick debugFlag).emu.Rom = e.Rom ∧
    (e.tick debugFlag).emu.Register.PC = (e.Register.PC + 1) % 256 ∧
    (e.tick debugFlag).halted = decide ((e.Register.PC + 1) % 256 ≥ e.Rom.length) := by
  obtain ⟨hr, _, hc⟩ := cycle_cases debugFlag e e.fetch
  unfold emulator.tick
  refine ⟨hr, ?_⟩
  rcases hc with ⟨hu, _, _⟩ | ⟨hx, ⟨_, hy⟩ | ⟨hj, _⟩ | ⟨hj, _⟩⟩
  · exfalso
    apply hu
    simp only [nonJumpOpCodes, definedOpCodes, List.mem_cons, List.mem_singleton,
      List.not_mem_nil, or_false] at h ⊢
    tauto
  · exact ⟨hy, by rw [hx, hy]⟩
  · rw [hj] at h
    exact absurd h (by decide)
  · rw [hj] at h
    exact absurd h (by decide)

/-- A run through `m` jump-free bytes up to the end of the program. -/
theorem straight_run (debugFlag : Bool) (rom : List Nat) (hlen : rom.length ≤ 16)
    (hops : ∀ b ∈ rom, (decode b).1 ∈ nonJumpOpCodes) (m : Nat) :
    ∀ e : emulator, e.Rom = rom → e.Register.PC + m = rom.length → 1 ≤ m →
      (∀ k, k < m → (e.exec debugFlag k).steps = k ∧ (e.exec debugFlag k).halted = false ∧
        (e.exec debugFlag k).emu.Register.PC = e.Register.PC + k) ∧
      (∀ j, (e.exec debugFlag (m + j)).steps = m ∧ (e.exec debugFlag (m + j)).halted = true ∧
        (e.exec debugFlag (m + j)).emu.Register.PC = rom.length ∧
        e.fetches debugFlag (m + j) = List.range' e.Register.PC m) := by
  induction m with
  | zero =>
    intro e _ _ h1
    omega
  | succ m ih =>
    intro e hrom hpc _
    have hlt : e.Register.PC < e.Rom.length := by rw [hrom]; omega
    have hop := hops e.fetch (hrom ▸ fetch_mem e hlt)
    obtain ⟨hr, hp, hh⟩ := tick_nonjump debugFlag e hop
    have hinc : (e.Register.PC + 1) % 256 = e.Register.PC + 1 := Nat.mod_eq_of_lt (by omega)
    rw [hinc] at hp hh
    rw [hrom] at hh
    by_cases hm : m = 0
    · subst hm
      have hhalt : (e.tick debugFlag).halted = true := by
        rw [hh]
        exact decide_eq_true (by omega)
      constructor
      · intro k hk
        have hk0 : k = 0 := by omega
        subst hk0
        exact ⟨rfl, rfl, rfl⟩
      · intro j
        have hj : 0 + 1 + j = j + 1 := by omega
        rw [hj, exec_succ_halted debugFlag j e hhalt, fetches_succ_halted debugFlag j e hhalt]
        refine ⟨rfl, rfl, ?_, rfl⟩
        show (e.tick debugFlag).emu.Register.PC = rom.length
        omega
    · have hrun : (e.tick debugFlag).halted = false := by
        rw [hh]
        exact decide_eq_false (by omega)
      obtain ⟨ih1, ih2⟩ := ih (e.tick debugFlag).emu (hr.trans hrom) (by omega) (by omega)
      constructor
      · intro k hk
        cases k with
        | zero => exact ⟨rfl, rfl, rfl⟩
        | succ k =>
          rw [exec_succ_running debugFlag k e hrun]
          obtain ⟨a1, a2, a3⟩ := ih1 k (by omega)
          refine ⟨?_, a2, ?_⟩
          · show ((e.tick debugFlag).emu.exec debugFlag k).steps + 1 = k + 1
            rw [a1]
          · show ((e.tick debugFlag).emu.exec debugFlag k).emu.Register.PC
              = e.Register.PC + (k + 1)
            rw [a3, hp]
            omega
      · intro j
        have hj : m + 1 + j = (m + j) + 1 := by omega
        rw [hj, exec_succ_running debugFlag _ e hrun, fetches_succ_running debugFlag _ e hrun]
        obtain ⟨a1, a2, a3, a4⟩ := ih2 j
        refine ⟨?_, a2, a3, ?_⟩
        · show ((e.tick debugFlag).emu.exec debugFlag (m + j)).steps + 1 = m + 1
          rw [a1]
        · rw [a4, hp]
          rfl

/-- C14: for every program of length n, 1 ≤ n ≤ 16, whose bytes all have opcodes among the
ten non-jump instructions, the run from the initial state halts after exactly n steps: with
fewer than n ticks it is still Running with as many steps as ticks and PC equal to that
number; with n ticks or more it has performed exactly n steps, is Halted with PC = n, and has
fetched from the addresses 0, 1, ..., n-1, once each, in that order. -/
theorem straight_line_halts (debugFlag : Bool) (rom : List Nat) (hpos : 1 ≤ rom.length)
    (hlen : rom.length ≤ 16) (hops : ∀ b ∈ rom, (decode b).1 ∈ nonJumpOpCodes) :
    newEmulator rom = Except.ok (initial rom) ∧
    (∀ k, k < rom.length →
      ((initial rom).exec debugFlag k).steps = k ∧
      ((initial rom).exec debugFlag k).halted = false ∧
      ((initial rom).exec debugFlag k).emu.Register.PC = k) ∧
    (∀ j, ((initial rom).exec debugFlag (rom.length + j)).steps = rom.length ∧
      ((initial rom).exec debugFlag (rom.length + j)).halted = true ∧
      ((initial rom).exec debugFlag (rom.length + j)).emu.Register.PC = rom.length ∧
      (initial rom).fetches debugFlag (rom.length + j) = List.range rom.length) := by
  obtain ⟨h1, h2⟩ := straight_run debugFlag rom hlen hops rom.length (initial rom) rfl
    (by show 0 + rom.length = rom.length; omega) hpos
  refine ⟨?_, ?_, ?_⟩
  · simp only [newEmulator, initial, Nat.not_lt.mpr hlen, if_false]
  · intro k hk
    obtain ⟨a1, a2, a3⟩ := h1 k hk
    refine ⟨a1, a2, ?_⟩
    rw [a3]
    show 0 + k = k
    omega
  · intro j
    obtain ⟨a1, a2, a3, a4⟩ := h2 j
    refine ⟨a1, a2, a3, ?_⟩
    rw [a4, List.range_eq_range']
    rfl

theorem straight_line_halts_witness :
    (1 ≤ calcRom.length ∧ calcRom.length ≤ 16 ∧
        ∀ b ∈ calcRom, (decode b).1 ∈ nonJumpOpCodes) ∧
      ((initial calcRom).exec false (calcRom.length + 3)).steps = calcRom.length ∧
      ((initial calcRom).exec false (calcRom.length + 3)).halted = true :=
  ⟨⟨by decide, by decide, by decide⟩,
    ((straight_line_halts false calcRom (by decide) (by decide) (by decide)).2.2 3).1,
    ((straight_line_halts false calcRom (by decide) (by decide) (by decide)).2.2 3).2.1⟩

/-! ## Programs that never leave their bytes -/

/-- A run that has not halted has processed every tick. -/
theorem exec_steps_running (debugFlag : Bool) (n : Nat) (e : emulator)
    (h : (e.exec debugFlag n).halted = false) : (e.exec debugFlag n).steps = n := by
  induction n generalizing e with
  | zero => rfl
  | succ k ih =>
    cases hh : (e.tick debugFlag).halted with
    | true =>
      rw [exec_succ_halted debugFlag k e hh] at h
      cases h
    | false =>
      rw [exec_succ_running debugFlag k e hh] at h ⊢
      show ((e.tick debugFlag).emu.exec debugFlag k).steps + 1 = k + 1
      rw [ih _ h]

/-- `fetch` inside the program returns the byte at PC. -/
theorem fetch_get (e : emulator) (h : e.Register.PC < e.Rom.length) :
    e.fetch = e.Rom.get ⟨e.Register.PC, h⟩ := by
  unfold emulator.fetch
  rw [dif_neg (Nat.not_le_of_lt h)]

/-- One tick inside a program whose opcodes are all defined, whose jumps stay inside it and
whose last byte is a JMP: the engine keeps running, inside the program. -/
theorem tick_stays_inside (debugFlag : Bool) (e : emulator)
    (hlen : e.Rom.length ≤ 16)
    (hdef : ∀ b ∈ e.Rom, (decode b).1 ∈ definedOpCodes)
    (hjmp : ∀ b ∈ e.Rom, (decode b).1 = opCode.jmp ∨ (decode b).1 = opCode.jnc →
      (decode b).2 < e.Rom.length)
    (hlast : ∀ k (hk : k < e.Rom.length), k + 1 = e.Rom.length →
      (decode (e.Rom.get ⟨k, hk⟩)).1 = opCode.jmp)
    (hlt : e.Register.PC < e.Rom.length) :
    (e.tick debugFlag).emu.Rom = e.Rom ∧ (e.tick debugFlag).halted = false ∧
    (e.tick debugFlag).emu.Register.PC < e.Rom.length := by
  have hmem := fetch_mem e hlt
  have hget := fetch_get e hlt
  have hinc : (e.Register.PC + 1) % 256 = e.Register.PC + 1 := Nat.mod_eq_of_lt (by omega)
  have hnext : (decode e.fetch).1 ≠ opCode.jmp → e.Register.PC + 1 < e.Rom.length := by
    intro hne
    by_contra hcon
    apply hne
    rw [hget]
    exact hlast e.Register.PC hlt (by omega)
  obtain ⟨hr, _, hc⟩ := cycle_cases debugFlag e e.fetch
  unfold emulator.tick
  have hpc : (e.cycle debugFlag e.fetch).halted
        = decide ((e.cycle debugFlag e.fetch).emu.Register.PC ≥ e.Rom.length) ∧
      (e.cycle debugFlag e.fetch).emu.Register.PC < e.Rom.length := by
    rcases hc with ⟨hu, _, _⟩ | ⟨hx, ⟨hn, hy⟩ | ⟨hj, hy⟩ | ⟨hj, hy | hy⟩⟩
    · exact absurd (hdef _ hmem) hu
    · refine ⟨hx, ?_⟩
      rw [hy, hinc]
      apply hnext
      intro hj
      rw [hj] at hn
      exact absurd hn (by decide)
    · refine ⟨hx, ?_⟩
      rw [hy]
      exact hjmp _ hmem (Or.inl hj)
    · refine ⟨hx, ?_⟩
      rw [hy]
      exact hjmp _ hmem (Or.inr hj)
    · refine ⟨hx, ?_⟩
      rw [hy, hinc]
      apply hnext
      rw [hj]
      decide
  refine ⟨hr, ?_, hpc.2⟩
  rw [hpc.1]
  exact decide_eq_false (by omega)

/-- C15: for every program of length n, 1 ≤ n ≤ 16, in which every byte has one of the
twelve defined opcodes, every JMP and JNC operand is less than n, and the last byte is a JMP,
the engine never halts on its own: every reachable state is Running with PC < n, and a run of
any number of ticks processes all of them and ends only by cancellation. -/
theorem jump_closed_never_halts (debugFlag : Bool) (rom : List Nat) (hpos : 1 ≤ rom.length)
    (hlen : rom.length ≤ 16)
    (hdef : ∀ b ∈ rom, (decode b).1 ∈ definedOpCodes)
    (hjmp : ∀ b ∈ rom, (decode b).1 = opCode.jmp ∨ (decode b).1 = opCode.jnc →
      (decode b).2 < rom.length)
    (hlast : ∀ k (hk : k < rom.length), k + 1 = rom.length →
      (decode (rom.get ⟨k, hk⟩)).1 = opCode.jmp) :
    newEmulator rom = Except.ok (initial rom) ∧
    (∀ e halted, Reach debugFlag rom e halted →
      halted = false ∧ e.Register.PC < rom.length) ∧
    (∀ n, ((initial rom).exec debugFlag n).halted = false ∧
      ((initial rom).exec debugFlag n).steps = n ∧
      ((initial rom).exec debugFlag n).emu.Register.PC < rom.length) := by
  have hnew : newEmulator rom = Except.ok (initial rom) := by
    simp only [newEmulator, initial, Nat.not_lt.mpr hlen, if_false]
  have hinv : ∀ e halted, Reach debugFlag rom e halted →
      e.Rom = rom ∧ halted = false ∧ e.Register.PC < rom.length := by
    intro e halted h
    induction h with
    | init e0 h0 =>
      obtain ⟨he, _⟩ := newEmulator_ok rom e0 h0
      subst he
      exact ⟨rfl, rfl, hpos⟩
    | tick e0 _ ih =>
      obtain ⟨hrom, _, hlt⟩ := ih
      subst hrom
      obtain ⟨a1, a2, a3⟩ := tick_stays_inside debugFlag e0 hlen hdef hjmp hlast hlt
      exact ⟨a1, a2, a3⟩
    | input e0 hl v hv _ ih => exact ih
  refine ⟨hnew, fun e halted h => (hinv e halted h).2, ?_⟩
  intro n
  have hr := exec_reach debugFlag rom n (initial rom) (Reach.init _ hnew)
  obtain ⟨_, h2, h3⟩ := hinv _ _ hr
  exact ⟨h2, exec_steps_running debugFlag n _ h2, h3⟩

theorem jump_closed_never_halts_witness :
    (1 ≤ ledRom.length ∧ ledRom.length ≤ 16 ∧
        (∀ b ∈ ledRom, (decode b).1 ∈ definedOpCodes) ∧
        (∀ b ∈ ledRom, (decode b).1 = opCode.jmp ∨ (decode b).1 = opCode.jnc →
          (decode b).2 < ledRom.length) ∧
        (∀ k (hk : k < ledRom.length), k + 1 = ledRom.length →
          (decode (ledRom.get ⟨k, hk⟩)).1 = opCode.jmp)) ∧
      ((initial ledRom).exec false 1000).halted = false ∧
      ((initial ledRom).exec false 1000).steps = 1000 :=
  ⟨⟨by decide, by decide, by decide, by decide, by decide⟩,
    ((jump_closed_never_halts false ledRom (by decide) (by decide) (by decide) (by decide)
      (by decide)).2.2 1000).1,
    ((jump_closed_never_halts false ledRom (by decide) (by decide) (by decide) (by decide)
      (by decide)).2.2 1000).2.1⟩

/-! ## The run of `ramenRom` -/

/-- The run of `a + b` ticks is the run of `a` ticks followed, when it has not halted, by
the run of `b` ticks. -/
theorem exec_add (debugFlag : Bool) (a b : Nat) (e : emulator)
    (h : (e.exec debugFlag a).halted = false) :
    e.exec debugFlag (a + b)
      = { emu := ((e.exec debugFlag a).emu.exec debugFlag b).emu
          log := (e.exec debugFlag a).log ++ ((e.exec debugFlag a).emu.exec debugFlag b).log
          steps := (e.exec debugFlag a).steps + ((e.exec debugFlag a).emu.exec debugFlag b).steps
          halted := ((e.exec debugFlag a).emu.exec debugFlag b).halted } := by
  induction a generalizing e with
  | zero =>
    show e.exec debugFlag (0 + b) = _
    rw [Nat.zero_add]
    simp [emulator.exec]
  | succ k ih =>
    have hk : k + 1 + b = (k + b) + 1 := by omega
    cases hh : (e.tick debugFlag).halted with
    | true =>
      rw [exec_succ_halted debugFlag k e hh] at h
      cases h
    | false =>
      rw [exec_succ_running debugFlag k e hh] at h
      rw [hk, exec_succ_running debugFlag (k + b) e hh, ih _ h,
        exec_succ_running debugFlag k e hh]
      simp only [List.append_assoc, Run.mk.injEq, true_and, and_true]
      omega

set_option maxRecDepth 100000 in
/-- The first 195 ticks of `ramenRom`, by evaluation. -/
theorem ramen_195 (debugFlag : Bool) :
    ((initial ramenRom).exec debugFlag 195).emu = ramenSpin ∧
    ((initial ramenRom).exec debugFlag 195).halted = false ∧
    ((initial ramenRom).exec debugFlag 195).steps = 195 ∧
    outputs ((initial ramenRom).exec debugFlag 195).log = ramenOutputs ∧
    (initial ramenRom).fetches debugFlag 195 = ramenPath := by
  cases debugFlag <;> exact ⟨by decide, by decide, by decide, by decide, by decide⟩

set_option maxRecDepth 100000 in
/-- The states in which `ramenRom` leaves each of its loops, by evaluation. -/
theorem ramen_loop_exits (debugFlag : Bool) :
    ((initial ramenRom).exec debugFlag 33).emu.Register
      = { A := 0, B := 0, C := false, PC := 3 } ∧
    ((initial ramenRom).exec debugFlag 65).emu.Register
      = { A := 0, B := 0, C := false, PC := 5 } ∧
    ((initial ramenRom).exec debugFlag 98).emu.Register
      = { A := 0, B := 0, C := false, PC := 8 } ∧
    ((initial ramenRom).exec debugFlag 130).emu.Register
      = { A := 0, B := 0, C := false, PC := 10 } ∧
    ((initial ramenRom).exec debugFlag 194).emu.Register
      = { A := 0, B := 0, C := false, PC := 14 } := by
  cases debugFlag <;> exact ⟨by decide, by decide, by decide, by decide, by decide⟩

set_option maxRecDepth 100000 in
/-- The shape of the path of `ramenRom`: its length, its start, how often it passes through
each ADD, and that it does not contain the last address. -/
theorem ramen_path_shape :
    ramenPath.length = 195 ∧
    ramenPath.take 34 = [0] ++ rounds16 [1, 2] ++ [3] ∧
    (ramenPath.count 1 = 16 ∧ ramenPath.count 3 = 16 ∧ ramenPath.count 6 = 16 ∧
      ramenPath.count 8 = 16 ∧ ramenPath.count 12 = 16) ∧
    15 ∉ ramenPath ∧
    ramenOutputs.length = 35 :=
  ⟨by decide, by decide, ⟨by decide, by decide, by decide, by decide, by decide⟩, by decide,
    by decide⟩

/-- On its last byte `ramenRom` jumps to itself: the run stays in `ramenSpin`, emits nothing
and does not halt. -/
theorem ramen_spin (debugFlag : Bool) (n : Nat) :
    (ramenSpin.exec debugFlag n).emu = ramenSpin ∧
    (ramenSpin.exec debugFlag n).halted = false ∧
    (ramenSpin.exec debugFlag n).steps = n ∧
    outputs (ramenSpin.exec debugFlag n).log = [] := by
  have ht : (ramenSpin.tick debugFlag).emu = ramenSpin ∧
      (ramenSpin.tick debugFlag).halted = false ∧
      outputs (ramenSpin.tick debugFlag).log = [] := by
    cases debugFlag <;> exact ⟨by decide, by decide, by decide⟩
  induction n with
  | zero => exact ⟨rfl, rfl, rfl, rfl⟩
  | succ k ih =>
    rw [exec_succ_running debugFlag k ramenSpin ht.2.1, ht.1]
    obtain ⟨a1, a2, a3, a4⟩ := ih
    refine ⟨a1, a2, ?_, ?_⟩
    · show (ramenSpin.exec debugFlag k).steps + 1 = k + 1
      rw [a3]
    · show outputs ((ramenSpin.tick debugFlag).log ++ (ramenSpin.exec debugFlag k).log) = []
      unfold outputs at *
      rw [List.filterMap_append, ht.2.2, a4]
      rfl

/-- C17: running `ramenRom` from the initial state, every JNC loop iterates exactly 16 times:
the addresses fetched during the first 195 steps are 0, sixteen times (1, 2), sixteen times
(3, 4), 5, sixteen times (6, 7), sixteen times (8, 9), sixteen times (10, 11, 12, 13), 14, and
each loop is left with A=0 and carry=false (PC=3 after 33 steps, 5 after 65, 8 after 98, 10
after 130, 14 after 194).  After exactly 195 steps the engine is at PC=15, not reached
before, with A=0, carry=false, Port.Out=8, having emitted the 35 output events 7, 6, sixteen
times (0, 4), 8.  From then on it stays at PC=15 forever, emitting nothing and never
halting. -/
theorem ramen_run (debugFlag : Bool) :
    newEmulator ramenRom = Except.ok (initial ramenRom) ∧
    (initial ramenRom).fetches debugFlag 195 = ramenPath ∧
    ramenPath.length = 195 ∧
    ramenPath.take 34 = [0] ++ rounds16 [1, 2] ++ [3] ∧
    (ramenPath.count 1 = 16 ∧ ramenPath.count 3 = 16 ∧ ramenPath.count 6 = 16 ∧
      ramenPath.count 8 = 16 ∧ ramenPath.count 12 = 16) ∧
    15 ∉ ramenPath ∧
    (((initial ramenRom).exec debugFlag 33).emu.Register
        = { A := 0, B := 0, C := false, PC := 3 } ∧
      ((initial ramenRom).exec debugFlag 65).emu.Register
        = { A := 0, B := 0, C := false, PC := 5 } ∧
      ((initial ramenRom).exec debugFlag 98).emu.Register
        = { A := 0, B := 0, C := false, PC := 8 } ∧
      ((initial ramenRom).exec debugFlag 130).emu.Register
        = { A := 0, B := 0, C := false, PC := 10 } ∧
      ((initial ramenRom).exec debugFlag 194).emu.Register
        = { A := 0, B := 0, C := false, PC := 14 }) ∧
    (((initial ramenRom).exec debugFlag 195).steps = 195 ∧
      ((initial ramenRom).exec debugFlag 195).halted = false ∧
      ((initial ramenRom).exec debugFlag 195).emu.Register
        = { A := 0, B := 0, C := false, PC := 15 } ∧
      ((initial ramenRom).exec debugFlag 195).emu.Port.Out = 8 ∧
      outputs ((initial ramenRom).exec debugFlag 195).log = ramenOutputs ∧
      ramenOutputs = [7, 6] ++ (List.replicate 16 [0, 4]).flatten ++ [8] ∧
      ramenOutputs.length = 35) ∧
    (∀ n, ((initial ramenRom).exec debugFlag (195 + n)).steps = 195 + n ∧
      ((initial ramenRom).exec debugFlag (195 + n)).halted = false ∧
      ((initial ramenRom).exec debugFlag (195 + n)).emu
        = ((initial ramenRom).exec debugFlag 195).emu ∧
      ((initial ramenRom).exec debugFlag (195 + n)).emu.Register.PC = 15 ∧
      outputs ((initial ramenRom).exec debugFlag (195 + n)).log = ramenOutputs) := by
  obtain ⟨b1, b2, b3, b4, b5⟩ := ramen_195 debugFlag
  obtain ⟨p1, p2, p3, p4, p5⟩ := ramen_path_shape
  refine ⟨rfl, b5, p1, p2, p3, p4, ramen_loop_exits debugFlag,
    ⟨b3, b2, by rw [b1]; rfl, by rw [b1]; rfl, b4, rfl, p5⟩, ?_⟩
  intro n
  obtain ⟨c1, c2, c3, c4⟩ := ramen_spin debugFlag n
  rw [exec_add debugFlag 195 n (initial ramenRom) b2, b1]
  refine ⟨?_, c2, ?_, ?_, ?_⟩
  · show ((initial ramenRom).exec debugFlag 195).steps + (ramenSpin.exec debugFlag n).steps
      = 195 + n
    rw [b3, c3]
  · exact c1
  · show (ramenSpin.exec debugFlag n).emu.Register.PC = 15
    rw [c1]
    rfl
  · show outputs (((initial ramenRom).exec debugFlag 195).log
      ++ (ramenSpin.exec debugFlag n).log) = ramenOutputs
    unfold outputs at *
    rw [List.filterMap_append, b4, c4, List.append_nil]

/-! ## The variant engine: is the non-resetting carry observable? -/

/-- With the carry clear on entry the two ADD A agree. -/
theorem addAFresh_eq (e : emulator) (im : Nat) (hc : e.Register.C = false) :
    e.addAFresh im = e.addA im := by
  unfold emulator.addAFresh emulator.addA
  by_cases h : (e.Register.A + im) % 256 > 0x0f <;> simp [h, hc]

/-- With the carry clear on entry the two ADD B agree. -/
theorem addBFresh_eq (e : emulator) (im : Nat) (hc : e.Register.C = false) :
    e.addBFresh im = e.addB im := by
  unfold emulator.addBFresh emulator.addB
  by_cases h : (e.Register.B + im) % 256 > 0x0f <;> simp [h, hc]

/-- The two switches agree unless an ADD is entered with the carry set. -/
theorem dispatchFresh_eq (e : emulator) (op : opCode) (im : Nat)
    (h : op = opCode.addA ∨ op = opCode.addB → e.Register.C = false) :
    e.dispatchFresh op im = e.dispatch op im := by
  unfold emulator.dispatchFresh
  by_cases hA : op = opCode.addA
  · rw [if_pos hA, addAFresh_eq e im (h (Or.inl hA)), hA]
    rfl
  · rw [if_neg hA]
    by_cases hB : op = opCode.addB
    · rw [if_pos hB, addBFresh_eq e im (h (Or.inr hB)), hB]
      rfl
    · rw [if_neg hB]

/-- The two tick branches agree unless an ADD is entered with the carry set. -/
theorem cycleFresh_eq (debugFlag : Bool) (e : emulator) (row : Nat)
    (h : isAdd row = true → e.Register.C = false) :
    e.cycleFresh debugFlag row = e.cycle debugFlag row := by
  have hd : e.dispatchFresh (decode row).1 (decode row).2
      = e.dispatch (decode row).1 (decode row).2 := by
    apply dispatchFresh_eq
    intro hop
    apply h
    unfold isAdd
    exact decide_eq_true hop
  simp only [emulator.cycleFresh, emulator.cycle, hd]

/-- Only the two ADD instructions can leave the carry set. -/
theorem dispatch_carry (e e1 : emulator) (op : opCode) (im : Nat) (out : List LogLine)
    (hd : e.dispatch op im = some (e1, out)) (hc : e1.Register.C = true) :
    op = opCode.addA ∨ op = opCode.addB := by
  by_cases h : op ∈ definedOpCodes
  · simp only [definedOpCodes, List.mem_cons, List.mem_singleton, List.not_mem_nil,
      or_false] at h
    rcases h with h | h | h | h | h | h | h | h | h | h | h | h <;> subst h
    · have h2 : some (e.movA im, ([] : List LogLine)) = some (e1, out) := hd
      cases h2
      cases hc
    · have h2 : some (e.movB im, ([] : List LogLine)) = some (e1, out) := hd
      cases h2
      cases hc
    · have h2 : some (e.movA2B, ([] : List LogLine)) = some (e1, out) := hd
      cases h2
      cases hc
    · have h2 : some (e.movB2A, ([] : List LogLine)) = some (e1, out) := hd
      cases h2
      cases hc
    · exact Or.inl rfl
    · exact Or.inr rfl
    · have h2 : some (e.jmp im, ([] : List LogLine)) = some (e1, out) := hd
      cases h2
      cases hc
    · have h2 : some (e.jnc im, ([] : List LogLine)) = some (e1, out) := hd
      cases h2
      cases hc
    · have h2 : some (e.inA, ([] : List LogLine)) = some (e1, out) := hd
      cases h2
      cases hc
    · have h2 : some (e.inB, ([] : List LogLine)) = some (e1, out) := hd
      cases h2
      cases hc
    · have h2 : some (e.outB.1, [e.outB.2]) = some (e1, out) := hd
      cases h2
      cases hc
    · have h2 : some ((e.outIm im).1, [(e.outIm im).2]) = some (e1, out) := hd
      cases h2
      cases hc
  · rw [dispatch_undefined e op im h] at hd
    cases hd

/-- In a program without two adjacent ADDs, the byte after an ADD is not an ADD. -/
theorem addPairFree_get : ∀ (rom : List Nat), addPairFree rom = true →
    ∀ k (h1 : k < rom.length) (h2 : k + 1 < rom.length),
      isAdd (rom.get ⟨k, h1⟩) = true → isAdd (rom.get ⟨k + 1, h2⟩) = true → False
  | [], _, _, h1, _, _, _ => by simp at h1
  | [_], _, _, _, h2, _, _ => by simp at h2
  | a :: b :: rest, hf, 0, _, _, ha, hb => by
    simp only [addPairFree, Bool.and_eq_true, Bool.not_eq_true', Bool.and_eq_false_iff] at hf
    have ha2 : isAdd a = true := ha
    have hb2 : isAdd b = true := hb
    rw [ha2, hb2] at hf
    simp at hf
  | a :: b :: rest, hf, k + 1, h1, h2, ha, hb => by
    simp only [addPairFree, Bool.and_eq_true] at hf
    exact addPairFree_get (b :: rest) hf.2 k (by simpa using h1) (by simpa using h2) ha hb

/-- One tick inside a program without two adjacent ADDs, from a state whose carry, if set,
was left by the ADD stored just before PC: the two engines agree on the tick, and the state
after it, when Running, is again such a state. -/
theorem tickFresh_step (debugFlag : Bool) (e : emulator) (hlen : e.Rom.length ≤ 16)
    (hfree : addPairFree e.Rom = true) (hlt : e.Register.PC < e.Rom.length)
    (hK : e.Register.C = true → ∃ k, ∃ hk : k < e.Rom.length,
      k + 1 = e.Register.PC ∧ isAdd (e.Rom.get ⟨k, hk⟩) = true) :
    e.tickFresh debugFlag = e.tick debugFlag ∧
    ((e.tick debugFlag).halted = false →
      (e.tick debugFlag).emu.Rom = e.Rom ∧
      (e.tick debugFlag).emu.Register.PC < e.Rom.length ∧
      ((e.tick debugFlag).emu.Register.C = true → ∃ k, ∃ hk : k < e.Rom.length,
        k + 1 = (e.tick debugFlag).emu.Register.PC ∧ isAdd (e.Rom.get ⟨k, hk⟩) = true)) := by
  have hf := fetch_get e hlt
  have hinc : (e.Register.PC + 1) % 256 = e.Register.PC + 1 := Nat.mod_eq_of_lt (by omega)
  constructor
  · unfold emulator.tickFresh emulator.tick
    apply cycleFresh_eq
    intro hadd
    cases hC : e.Register.C with
    | false => rfl
    | true =>
      exfalso
      obtain ⟨k, hk, hkp, hka⟩ := hK hC
      have hk2 : k + 1 < e.Rom.length := by omega
      have hnext : ∀ p (hp : p < e.Rom.length), p = k + 1 →
          isAdd (e.Rom.get ⟨p, hp⟩) = true → isAdd (e.Rom.get ⟨k + 1, hk2⟩) = true := by
        intro p hp heq
        subst heq
        exact id
      rw [hf] at hadd
      exact addPairFree_get e.Rom hfree k hk hk2 hka (hnext _ hlt hkp.symm hadd)
  · intro hh
    unfold emulator.tick at hh ⊢
    rcases dispatch_cases e (decode e.fetch).1 (decode e.fetch).2 with
      ⟨_, hd⟩ | ⟨e1, out, hd, hrom, _, hpc⟩
    · rw [cycle_none debugFlag e _ hd] at hh
      cases hh
    · rw [cycle_some debugFlag e e1 _ out hd] at hh ⊢
      have hlt1 : e1.Register.PC < e1.Rom.length := by
        have := of_decide_eq_false hh
        omega
      refine ⟨hrom, hrom ▸ hlt1, ?_⟩
      intro hc
      have hop := dispatch_carry e e1 _ _ out hd hc
      have hadd : isAdd e.fetch = true := by
        unfold isAdd
        exact decide_eq_true hop
      have hp1 : e1.Register.PC = e.Register.PC + 1 := by
        rcases hpc with ⟨_, hy⟩ | ⟨hj, _⟩ | ⟨hj, _⟩
        · exact hy.trans hinc
        · rw [hj] at hop
          exact absurd hop (by decide)
        · rw [hj] at hop
          exact absurd hop (by decide)
      refine ⟨e.Register.PC, hlt, hp1.symm, ?_⟩
      rw [← hf]
      exact hadd

/-- On a program of at most 16 bytes without two adjacent ADDs, from a state inside the
program whose carry, if set, was left by the ADD stored just before PC, the variant engine and
the engine of `main.go` produce the same run. -/
theorem execFresh_eq (debugFlag : Bool) (n : Nat) :
    ∀ e : emulator, e.Rom.length ≤ 16 → addPairFree e.Rom = true →
      e.Register.PC < e.Rom.length →
      (e.Register.C = true → ∃ k, ∃ hk : k < e.Rom.length,
        k + 1 = e.Register.PC ∧ isAdd (e.Rom.get ⟨k, hk⟩) = true) →
      e.execFresh debugFlag n = e.exec debugFlag n := by
  induction n with
  | zero =>
    intro e _ _ _ _
    rfl
  | succ k ih =>
    intro e hlen hfree hlt hK
    obtain ⟨h1, h2⟩ := tickFresh_step debugFlag e hlen hfree hlt hK
    cases hh : (e.tick debugFlag).halted with
    | true =>
      rw [exec_succ_halted debugFlag k e hh]
      simp only [emulator.execFresh, h1, hh, if_true]
    | false =>
      obtain ⟨a1, a2, a3⟩ := h2 hh
      have hrec := ih (e.tick debugFlag).emu (by rw [a1]; exact hlen) (by rw [a1]; exact hfree)
        (by rw [a1]; exact a2) (by rw [a1]; exact a3)
      rw [exec_succ_running debugFlag k e hh]
      simp only [emulator.execFresh, h1, hh, hrec]
      rfl

/-- The variant engine and the engine of `main.go` produce the same run from the initial
state of every non-empty program of at most 16 bytes without two adjacent ADDs. -/
theorem execFresh_initial (debugFlag : Bool) (rom : List Nat) (hne : rom ≠ [])
    (hlen : rom.length ≤ 16) (hfree : addPairFree rom = true) (n : Nat) :
    (initial rom).execFresh debugFlag n = (initial rom).exec debugFlag n :=
  execFresh_eq debugFlag n (initial rom) hlen hfree (List.length_pos.mpr hne)
    (fun hc => Bool.noConfusion hc)

/-- C18 as stated fails: for none of the three built-in sample programs does the variant
engine, whose ADD A / ADD B set the carry to `sum > 15`, produce a run different from the one
of the actual engine, whatever the number of ticks; each of the three is accepted by
`newEmulator`. -/
theorem sample_roms_fresh_carry_same :
    (∀ rom ∈ [calcRom, ledRom, ramenRom], newEmulator rom = Except.ok (initial rom)) ∧
    ¬ ∃ rom ∈ [calcRom, ledRom, ramenRom], ∃ debugFlag n,
      (initial rom).execFresh debugFlag n ≠ (initial rom).exec debugFlag n := by
  constructor
  · intro rom hmem
    simp only [List.mem_cons, List.mem_singleton, List.not_mem_nil, or_false] at hmem
    rcases hmem with h | h | h <;> subst h <;> rfl
  · rintro ⟨rom, hmem, debugFlag, n, hne⟩
    apply hne
    simp only [List.mem_cons, List.mem_singleton, List.not_mem_nil, or_false] at hmem
    rcases hmem with h | h | h <;> subst h
    · exact execFresh_initial debugFlag calcRom (by decide) (by decide) (by decide) n
    · exact execFresh_initial debugFlag ledRom (by decide) (by decide) (by decide) n
    · exact execFresh_initial debugFlag ramenRom (by decide) (by decide) (by decide) n

/-- C18, amended: the non-resetting carry of the two ADD instructions is not load-bearing for
any built-in sample program.  On every non-empty program of at most 16 bytes in which no ADD
is stored directly after another ADD, which includes `calcRom`, `ledRom` and `ramenRom`, the
variant engine whose ADD A / ADD B set the carry to `sum > 15` produces, for every number of
ticks, the same states and the same output events as the actual engine.  The two engines do
differ on other programs: on `carryRom` the actual engine halts after four steps and the
variant does not. -/
theorem fresh_carry_unobservable (debugFlag : Bool) (rom : List Nat) (hne : rom ≠ [])
    (hlen : rom.length ≤ 16) (hfree : addPairFree rom = true) (n : Nat) :
    (initial rom).execFresh debugFlag n = (initial rom).exec debugFlag n ∧
    (addPairFree calcRom = true ∧ addPairFree ledRom = true ∧ addPairFree ramenRom = true) ∧
    addPairFree carryRom = false ∧
    ((initial carryRom).exec debugFlag 4).halted = true ∧
    ((initial carryRom).execFresh debugFlag 4).halted = false := by
  refine ⟨execFresh_initial debugFlag rom hne hlen hfree n, by decide, by decide, ?_, ?_⟩
  · cases debugFlag <;> decide
  · cases debugFlag <;> decide

theorem fresh_carry_unobservable_witness :
    (ramenRom ≠ [] ∧ ramenRom.length ≤ 16 ∧ addPairFree ramenRom = true) ∧
      (initial ramenRom).execFresh false 500 = (initial ramenRom).exec false 500 :=
  ⟨⟨by decide, by decide, by decide⟩,
    (fresh_carry_unobservable false ramenRom (by decide) (by decide) (by decide) 500).1⟩

end TD4
